import Mathlib

/-!
# RembranDB: the query loop emitted by `ExecuteQuery` and the shell around it

A shallow embedding of `src/database.c`.

* `PerformOperation` is the value that the instructions emitted by the C function of the
  same name compute at run time, for a given row index.
* The function `loop` that `ExecuteQuery` builds block by block is a transition system:
  `entry` gives the state in which control reaches the block `condition`, `step` executes
  one basic block, `run` iterates `step`.
* 64-bit integers are `Int` with explicit wrap-around (`wrap64`), `size_t` is `Nat` modulo
  `2^64`.
* Double arithmetic is not part of the repository: the operations of the target machine
  are the parameter `FloatOps`.
* Memory faults, ill-typed instructions and reads of uninitialised pointers are the state
  `Block.fault`, entered when the faulty instruction is executed. (LLVM gives no meaning to
  a function with an ill-typed instruction; the parser is assumed to deliver well-typed
  operation trees.)
* The optimisation passes and the JIT compiler are taken to preserve the meaning of
  `loop`: what runs is the function as it was built.
* The input of the shell is a list of bytes; `ReadQuery` converts each to a signed `char`
  before it compares it with `EOF`, as the code does.
* `specPipeline`, `evalDouble` and `evalBool` are reference definitions written from the
  spec, to be compared with `InitializePassManager` and `PerformOperation`; what IEEE 754
  says about NaN and the infinities is the hypothesis `IEEEComparisons`.
-/

namespace RembranDB

/-! ## Machine arithmetic -/

/-- Value of a 64-bit two's complement word: the representative of `x` in `[-2^63, 2^63)`. -/
def wrap64 (x : Int) : Int :=
  (x + 9223372036854775808) % 18446744073709551616 - 9223372036854775808

/-- Conversion of a signed 64-bit value to `size_t` (64 bit, unsigned). -/
def toSizeT (x : Int) : Nat := (x % 18446744073709551616).toNat

/-- The operations on `double` that the emitted instructions use: `fmul`, `fdiv`, `fadd`,
`fsub`, the six ordered comparisons of `fcmp`, and the constant `INFINITY`. They belong to
the target machine, so they are a parameter of the embedding. -/
structure FloatOps (F : Type) where
  fmul : F → F → F
  fdiv : F → F → F
  fadd : F → F → F
  fsub : F → F → F
  olt : F → F → Bool
  ole : F → F → Bool
  oeq : F → F → Bool
  one : F → F → Bool
  ogt : F → F → Bool
  oge : F → F → Bool
  INFINITY : F

/-! ## Data model (`table.h`, `parser.h`) -/

/-- Modelled from the spec: `table.h` is not part of the sources. A `Column` is a densely
stored array of doubles (`data`) together with its length (`size`), a field of its own as
in the C structure. -/
structure Column (F : Type) where
  data : List F
  size : Nat
  deriving DecidableEq, Repr

/-- Modelled from the spec: `table.h` is not part of the sources. A `Table` as made by
`CreateTable(name, column)`: a name and one column. -/
structure Table (F : Type) where
  name : String
  column : Column F
  deriving DecidableEq, Repr

/-- Modelled from the spec: `parser.h` is not part of the sources. The kinds of a binary
operation, in the order of the `switch` of `PerformOperation`. -/
inductive OpType where
  | OPTYPE_mul | OPTYPE_div | OPTYPE_add | OPTYPE_sub
  | OPTYPE_lt | OPTYPE_le | OPTYPE_eq | OPTYPE_ne | OPTYPE_gt | OPTYPE_ge
  | OPTYPE_and | OPTYPE_or
  deriving DecidableEq, Repr

/-- Modelled from the spec: `parser.h` is not part of the sources. The operation tree:
`BinaryOperation`, `ColumnOperation` (the field `column` is a pointer to a `Column`, here
the address of the column), `ConstantOperation`, and `OPTYPE_other` for a node whose
`type` is none of the three. -/
inductive Operation (F : Type) where
  | OPTYPE_binop (optype : OpType) (left right : Operation F)
  | OPTYPE_colmn (column : Nat)
  | OPTYPE_const (value : F)
  | OPTYPE_other

/-- Modelled from the spec: `parser.h` is not part of the sources. `columns` is the linked
list `ColumnList`, one entry per node, holding the address of the node's column or `none`
when the node's `column` is null; `where_` is `none` when the query has no where clause. -/
structure Query (F : Type) where
  columns : List (Option Nat)
  select : Operation F
  where_ : Option (Operation F)

/-- The columns in memory: the column stored at an address, if any. -/
abbrev Heap (F : Type) := Nat → Option (Column F)

/-! ## The expression lowerer -/

/-- A run-time value of the emitted code: a `double` or an `i1`. -/
inductive Value (F : Type) where
  | double (x : F)
  | i1 (b : Bool)
  deriving DecidableEq, Repr

/-- The codegen handles: for the column at an address, what its stack slot `llvm_ptr`
holds while `loop` runs, namely the array the loaded pointer points to (`none`: no slot,
or a pointer that was never initialised). -/
abbrev Handles (F : Type) := Nat → Option (List F)

/-- Element `i` of an array, for a signed index; `none` outside the array. -/
def loadAt {F : Type} (a : List F) (i : Int) : Option F :=
  if 0 ≤ i then a.get? i.toNat else none

/-- The instruction selected by the `switch` on `binop->optype`, applied to the values of
its operands. Arithmetic and `fcmp` need two doubles, `and` and `or` two `i1`. -/
def binop {F : Type} (fo : FloatOps F) : OpType → Value F → Value F → Option (Value F)
  | .OPTYPE_mul, .double x, .double y => some (.double (fo.fmul x y))
  | .OPTYPE_div, .double x, .double y => some (.double (fo.fdiv x y))
  | .OPTYPE_add, .double x, .double y => some (.double (fo.fadd x y))
  | .OPTYPE_sub, .double x, .double y => some (.double (fo.fsub x y))
  | .OPTYPE_lt, .double x, .double y => some (.i1 (fo.olt x y))
  | .OPTYPE_le, .double x, .double y => some (.i1 (fo.ole x y))
  | .OPTYPE_eq, .double x, .double y => some (.i1 (fo.oeq x y))
  | .OPTYPE_ne, .double x, .double y => some (.i1 (fo.one x y))
  | .OPTYPE_gt, .double x, .double y => some (.i1 (fo.ogt x y))
  | .OPTYPE_ge, .double x, .double y => some (.i1 (fo.oge x y))
  | .OPTYPE_and, .i1 x, .i1 y => some (.i1 (x && y))
  | .OPTYPE_or, .i1 x, .i1 y => some (.i1 (x || y))
  | _, _, _ => none

/-- The value computed at row `index` by the instructions that `PerformOperation` emits
for `op`. Both operands of a binary operation are computed, left first. A column reference
loads the pointer from the column's handle and then the element at `index`. `none` is a
null result (`return NULL`), an ill-typed instruction or a load outside the array. -/
def PerformOperation {F : Type} (fo : FloatOps F) (handles : Handles F) :
    Operation F → Int → Option (Value F)
  | .OPTYPE_binop optype l r, index =>
    match PerformOperation fo handles l index, PerformOperation fo handles r index with
    | some left, some right => binop fo optype left right
    | _, _ => none
  | .OPTYPE_colmn column, index =>
    match handles column with
    | some colptr_base =>
      match loadAt colptr_base index with
      | some x => some (.double x)
      | none => none
    | none => none
  | .OPTYPE_const value, _ => some (.double value)
  | .OPTYPE_other, _ => none

/-! ## The function `loop` -/

/-- `OVERFLOW_CODE`. -/
def OVERFLOW_CODE : Int := 1

/-- The control points of `loop`. `body_store` carries the two values computed in
`body_main` that it uses (`index_body` and `result_value`); `returned v` is the state after
`ret v`; `fault` is the state after an instruction without defined behaviour. The block
`entry` is the function `entry` below. -/
inductive Block (F : Type) where
  | condition
  | body_condition
  | body_main
  | body_store (index_body : Int) (result_value : F)
  | increment
  | end_block
  | overflow_error
  | returned (v : Int)
  | fault
  deriving DecidableEq, Repr

/-- State of a call of `loop`: the current block, the stack slots `index` and
`result_index` (the latter exists only when the query has a where clause) and the contents
of the buffer `result`. -/
structure State (F : Type) where
  block : Block F
  index : Int
  result_index : Option Int
  result : List F
  deriving DecidableEq, Repr

/-- Store to `result[w]`; `none` when `w` is outside the buffer. -/
def storeAt {F : Type} (a : List F) (w : Int) (x : F) : Option (List F) :=
  if 0 ≤ w ∧ w.toNat < a.length then some (a.set w.toNat x) else none

/-- The handles after the loop of the block `entry` over the column list, started at
position `i`: the slot of the column of node `i` receives `inputs[i]`. -/
def entryHandles {F : Type} (inputs : List (Option (List F))) :
    List (Option Nat) → Nat → Handles F → Handles F
  | [], _, h => h
  | none :: cols, i, h => entryHandles inputs cols (i + 1) h
  | some c :: cols, i, h =>
    entryHandles inputs cols (i + 1) (Function.update h c ((inputs.get? i).join))

/-- The block `entry`: `result_index` is allocated and set to 0 when there is a where
clause, `index` is set to 0, control goes to `condition`. -/
def entry {F : Type} (q : Query F) (result : List F) : State F :=
  { block := .condition
    index := 0
    result_index := if q.where_.isSome then some 0 else none
    result := result }

/-- One basic block of `loop`. -/
def step {F : Type} (fo : FloatOps F) (q : Query F) (handles : Handles F) (size : Int)
    (s : State F) : State F :=
  match s.block with
  | .condition =>
    if s.index < size then
      { s with block := if q.where_.isSome then .body_condition else .body_main }
    else { s with block := .end_block }
  | .body_condition =>
    match q.where_ with
    | some w =>
      match PerformOperation fo handles w s.index with
      | some (.i1 true) => { s with block := .body_main }
      | some (.i1 false) => { s with block := .increment }
      | _ => { s with block := .fault }
    | none => { s with block := .fault }
  | .body_main =>
    match PerformOperation fo handles q.select s.index with
    | some (.double result_value) =>
      if fo.oeq result_value fo.INFINITY then { s with block := .overflow_error }
      else { s with block := .body_store s.index result_value }
    | _ => { s with block := .fault }
  | .body_store index_body result_value =>
    match q.where_ with
    | some _ =>
      match s.result_index with
      | some result_index =>
        match storeAt s.result result_index result_value with
        | some r =>
          { s with block := .increment, result_index := some (wrap64 (result_index + 1)),
                   result := r }
        | none => { s with block := .fault }
      | none => { s with block := .fault }
    | none =>
      match storeAt s.result index_body result_value with
      | some r => { s with block := .increment, result := r }
      | none => { s with block := .fault }
  | .overflow_error => { s with block := .returned OVERFLOW_CODE }
  | .increment => { s with block := .condition, index := wrap64 (s.index + 1) }
  | .end_block =>
    match q.where_ with
    | some _ =>
      match s.result_index with
      | some elements => { s with block := .returned elements }
      | none => { s with block := .fault }
    | none => { s with block := .returned s.index }
  | .returned _ => s
  | .fault => s

/-- Execution of `n` basic blocks. -/
def run {F : Type} (fo : FloatOps F) (q : Query F) (handles : Handles F) (size : Int) :
    Nat → State F → State F
  | 0, s => s
  | n + 1, s => run fo q handles size n (step fo q handles size s)

/-- The call `loop(result, inputs, size)`, given `fuel` basic blocks to execute after
`entry`. -/
def loop_func {F : Type} (fo : FloatOps F) (q : Query F) (fuel : Nat) (result : List F)
    (inputs : List (Option (List F))) (size : Int) : State F :=
  run fo q (entryHandles inputs q.columns 0 (fun _ => none)) size fuel (entry q result)

/-! ## The optimisation pipeline -/

/-- The passes of the LLVM C API that `InitializePassManager` adds. -/
inductive Pass where
  | TargetMachinePasses | CFGSimplification | PromoteMemoryToRegister | InstructionCombining
  | ScalarReplAggregates | ScalarReplAggregatesSSA | JumpThreading | Reassociate | EarlyCSE
  | LoopIdiom | LoopRotate | LICM | LoopUnswitch | IndVarSimplify | LoopDeletion
  | LoopUnroll | LoopVectorize | GVN | MemCpyOpt | SCCP | SLPVectorize | AggressiveDCE
  deriving DecidableEq, Repr

/-- The passes that `InitializePassManager` adds to the function pass manager, in the
order of the calls. -/
def InitializePassManager : List Pass :=
  [ .TargetMachinePasses, .CFGSimplification, .PromoteMemoryToRegister,
    .InstructionCombining, .ScalarReplAggregates, .ScalarReplAggregatesSSA,
    .InstructionCombining, .JumpThreading, .InstructionCombining, .Reassociate,
    .EarlyCSE, .LoopIdiom, .LoopRotate, .LICM, .LoopUnswitch, .InstructionCombining,
    .IndVarSimplify, .LoopDeletion, .LoopUnroll, .LoopVectorize, .InstructionCombining,
    .GVN, .MemCpyOpt, .SCCP, .InstructionCombining, .SLPVectorize, .AggressiveDCE,
    .InstructionCombining ]

/-! ## `ExecuteQuery` -/

/-- The static variables of `database.c` that hold the command line settings, with their
initial values. -/
structure Globals where
  enable_optimizations : Bool := false
  print_result : Bool := true
  print_llvm : Bool := true
  execute_statement : Bool := false
  statement : Option String := none
  deriving DecidableEq, Repr

/-- What `ExecuteQuery` does to the module after it has built `loop`, and what it prints
on the error stream. -/
inductive Action where
  | LLVMRunFunctionPassManager (passes : List Pass)
  | LLVMDumpModule
  | LLVMCreateMCJITCompilerForModule
  | stderr (msg : String)
  deriving DecidableEq, Repr

/-- How a call of `ExecuteQuery` ends: it returns a table, it returns `NULL`, it
dereferences a null pointer or `loop` faults (`crash`), or `loop` has not returned within
the fuel given (`running`). -/
inductive Outcome (F : Type) where
  | table (t : Table F)
  | NULL
  | crash
  | running
  deriving DecidableEq, Repr

/-- The array `inputs` after the second loop over the column list: `inputs[i]` receives
the data of the column of node `i`; the entry of a node without column keeps what `malloc`
returned (`none`). The array has one entry per node (`GetColCount` is taken to count the
nodes of the list). -/
def fillInputs {F : Type} (heap : Heap F) : List (Option Nat) → List (Option (List F))
  | [] => []
  | none :: cols => none :: fillInputs heap cols
  | some c :: cols => ((heap c).map (fun col => col.data)) :: fillInputs heap cols

/-- `query->columns->column->size`: the size of the column of the first node. -/
def firstColumnSize {F : Type} (heap : Heap F) (q : Query F) : Option Nat :=
  match q.columns with
  | some c :: _ => (heap c).map (fun col => col.size)
  | _ => none

/-- `CreateColumn(data, size)`. -/
def CreateColumn {F : Type} (data : List F) (size : Nat) : Column F :=
  { data := data, size := size }

/-- `CreateTable(name, column)`. -/
def CreateTable {F : Type} (name : String) (column : Column F) : Table F :=
  { name := name, column := column }

set_option linter.unusedVariables false in
/-- The function `ExecuteQuery`, after the construction of `loop`: the passes are run, the
module is dumped and compiled, `inputs` and `result` are allocated (`junk i` is what
`malloc` left in `result[i]`), `loop` is called and its return value, converted to
`size_t`, is compared with `OVERFLOW_CODE`. The static variables `g` are in scope; the
function reads none of them. -/
def ExecuteQuery {F : Type} (fo : FloatOps F) (heap : Heap F) (junk : Nat → F) (fuel : Nat)
    (g : Globals) (q : Query F) : List Action × Outcome F :=
  let compile : List Action :=
    [ .LLVMRunFunctionPassManager InitializePassManager, .LLVMDumpModule,
      .LLVMCreateMCJITCompilerForModule ]
  match firstColumnSize heap q with
  | none => ([], .crash)
  | some elements =>
    let inputs := fillInputs heap q.columns
    let result := (List.range elements).map junk
    let s := loop_func fo q fuel result inputs (wrap64 elements)
    match s.block with
    | .returned v =>
      let res_elements := toSizeT v
      if res_elements = toSizeT OVERFLOW_CODE then
        (compile ++ [.stderr "ERROR: Overflow in calculation!\n"], .NULL)
      else (compile, .table (CreateTable "Result" (CreateColumn s.result res_elements)))
    | .fault => (compile, .crash)
    | _ => (compile, .running)

/-! ## The shell: `main` and `ReadQuery` -/

/-- The loop of `main` over `argv[1..]`: `Except.error code` when the program ends there
with that exit code (`return 0` for `--help`, `exit(1)` for an unrecognised option). -/
def processArgs : List String → Globals → Except Nat Globals
  | [], g => .ok g
  | arg :: rest, g =>
    if arg = "--help" then .error 0
    else if arg = "-opt" then processArgs rest { g with enable_optimizations := true }
    else if arg = "-no-print" then processArgs rest { g with print_result := false }
    else if arg = "-no-llvm" then processArgs rest { g with print_llvm := false }
    else if arg = "-s" then processArgs rest { g with execute_statement := true }
    else if g.execute_statement then processArgs rest { g with statement := some arg }
    else .error 1

/-- The options that the loop over `argv` compares with, `--help` apart. -/
def recognisedFlags : List String := ["-opt", "-no-print", "-no-llvm", "-s"]

/-- A byte of the input, as `getchar` delivers it: 0 to 255. -/
abbrev Byte := Fin 256

/-- The byte of a character constant of the source, such as the newline or `;`. -/
def byteOf (c : Char) : Byte := Fin.ofNat c.toNat

/-- `EOF`, the value that `getchar` returns at the end of the input. -/
def EOF : Int := -1

/-- The conversion to `char` in `c = getchar()`: `c` is a `char` and `char` is a signed
type of 8 bits (as on x86-64, and as the comparison of `c` with `EOF` presupposes), so the
result is the two's complement value of the low 8 bits. `EOF` stays `EOF`, and the byte
255 becomes `EOF` too. -/
def toChar (x : Int) : Int := (x + 128) % 256 - 128

/-- The string that a sequence of bytes stands for: one character per byte. -/
def stringOf (bytes : List Byte) : String := String.mk (bytes.map fun b => Char.ofNat b.val)

/-- Result of `ReadQuery`: the returned string and the input left, or a fault (a store
outside the 5000 bytes of `buffer`, or a returned buffer without terminating zero). -/
inductive ReadResult where
  | str (s : String) (rest : List Byte)
  | fault
  deriving DecidableEq, Repr

/-- The C string that starts at `buffer[0]`: the bytes before the first zero. -/
def cString (buffer : List Byte) : Option String :=
  if (0 : Byte) ∈ buffer then some (stringOf (buffer.takeWhile (fun c => c != 0)))
  else none

/-- The `while` loop of `ReadQuery` over the bytes of the input, with the contents of
`buffer` and `buffer_pos`. At the end of the list `getchar` returns `EOF`, and
`toChar EOF = EOF`: the loop ends. For a byte `b` the loop ends as well when
`toChar b = EOF`, with the rest of the input unread; otherwise `c` is the byte `b`. -/
def ReadQuery.go : List Byte → List Byte → Nat → ReadResult
  | [], _, _ => .str "\\q" []
  | b :: rest, buffer, buffer_pos =>
    if toChar (b.val : Int) = EOF then .str "\\q" rest
    else if b = byteOf '\n' then
      if buffer.get? 0 = some (byteOf '\\') then
        match cString buffer with
        | some s => .str s rest
        | none => .fault
      else if buffer_pos < buffer.length then
        ReadQuery.go rest (buffer.set buffer_pos (byteOf ' ')) (buffer_pos + 1)
      else .fault
    else if b = byteOf ';' then
      if buffer_pos < buffer.length then
        match cString (buffer.set buffer_pos 0) with
        | some s => .str s rest
        | none => .fault
      else .fault
    else if buffer_pos < buffer.length then
      ReadQuery.go rest (buffer.set buffer_pos b) (buffer_pos + 1)
    else .fault

/-- The function `ReadQuery` on the input `stdin`; `garbage i` is what `malloc` left in
`buffer[i]`. -/
def ReadQuery (garbage : Nat → Byte) (stdin : List Byte) : ReadResult :=
  ReadQuery.go stdin ((List.range 5000).map garbage) 0

/-- What the loop of `main` does that can be seen from outside. -/
inductive MainEvent (F : Type) where
  | PrintTables
  | ParseQuery (query_string : String)
  | ExecuteQuery (actions : List Action) (tbl : Outcome F)
  | PrintTable (tbl : Outcome F)
  deriving DecidableEq, Repr

/-- How far `main` got: it left the `while` loop (and returns after `Cleanup`), it
crashed, or it is still inside the loop when the fuel of the model ran out. -/
inductive MainStatus where
  | left_loop
  | crash
  | in_loop
  deriving DecidableEq, Repr

/-- The environment of the shell that is not in `database.c`: the parser, the columns in
memory, the machine arithmetic, and what `malloc` returns. -/
structure World (F : Type) where
  fo : FloatOps F
  ParseQuery : String → Option (Query F)
  heap : Heap F
  junk : Nat → F
  garbage : Nat → Byte

/-- The part of the body of the `while` loop from `ParseQuery` to `PrintTable`: its events,
and `none` when control reaches the end of the body, else the status in which it stops. -/
def queryBody {F : Type} (w : World F) (fuel : Nat) (g : Globals) (query_string : String) :
    List (MainEvent F) × Option MainStatus :=
  match w.ParseQuery query_string with
  | some query =>
    let (actions, tbl) := ExecuteQuery w.fo w.heap w.junk fuel g query
    match tbl with
    | .crash => ([.ParseQuery query_string, .ExecuteQuery actions tbl], some .crash)
    | .running => ([.ParseQuery query_string, .ExecuteQuery actions tbl], some .in_loop)
    | _ =>
      ([.ParseQuery query_string, .ExecuteQuery actions tbl]
        ++ (if g.print_result then [.PrintTable tbl] else []), none)
  | none => ([.ParseQuery query_string], none)

/-- The `while(true)` loop of `main`, for at most `n` iterations; `fuel` is the number of
basic blocks each call of `loop` may execute. The events are listed in order. A null
`statement` (`-s` without operand) crashes in `strcmp`. -/
def mainLoop {F : Type} (w : World F) (fuel : Nat) (g : Globals) :
    Nat → List Byte → List (MainEvent F) × MainStatus
  | 0, _ => ([], .in_loop)
  | n + 1, stdin =>
    let read : Option (String × List Byte) :=
      if !g.execute_statement then
        match ReadQuery w.garbage stdin with
        | .str s rest => some (s, rest)
        | .fault => none
      else g.statement.map (fun s => (s, stdin))
    match read with
    | none => ([], .crash)
    | some (query_string, stdin) =>
      if query_string = "\\q" ∨ (query_string.length > 0 ∧ query_string.front = '^') then
        ([], .left_loop)
      else if query_string = "\\d" then
        let (evs, st) := mainLoop w fuel g n stdin
        (.PrintTables :: evs, st)
      else
        match queryBody w fuel g query_string with
        | (evs, some st) => (evs, st)
        | (evs, none) =>
          if g.execute_statement then (evs, .left_loop)
          else
            let (evs2, st) := mainLoop w fuel g n stdin
            (evs ++ evs2, st)

/-- The function `main`: the arguments `argv[1..]` are processed, then the loop runs.
`Except.error code`: the program ended during argument processing with that exit code. -/
def main {F : Type} (w : World F) (fuel : Nat) (argv : List String) (n : Nat)
    (stdin : List Byte) : Except Nat (List (MainEvent F) × MainStatus) :=
  match processArgs (argv.drop 1) {} with
  | .error code => .error code
  | .ok g => .ok (mainLoop w fuel g n stdin)

/-! ## An arithmetic to evaluate the definitions on examples -/

/-- The doubles whose value is an integer, with the two infinities and NaN. -/
inductive IntDouble where
  | nan
  | inf (negative : Bool)
  | fin (x : Int)
  deriving DecidableEq, Repr

namespace IntDouble

/-- An exact result as a double: an infinity from `2^1024` on. -/
def ofInt (x : Int) : IntDouble :=
  if (2 ^ 256) ^ 4 ≤ x.natAbs then inf (decide (x < 0)) else fin x

/-- Sum. -/
def add : IntDouble → IntDouble → IntDouble
  | fin x, fin y => ofInt (x + y)
  | inf a, inf b => if a = b then inf a else nan
  | inf a, fin _ => inf a
  | fin _, inf b => inf b
  | _, _ => nan

/-- Opposite. -/
def neg : IntDouble → IntDouble
  | fin x => fin (-x)
  | inf a => inf (!a)
  | nan => nan

/-- Product. -/
def mul : IntDouble → IntDouble → IntDouble
  | fin x, fin y => ofInt (x * y)
  | inf a, inf b => inf (a != b)
  | inf a, fin y => if y = 0 then nan else inf (a != decide (y < 0))
  | fin x, inf b => if x = 0 then nan else inf (b != decide (x < 0))
  | _, _ => nan

/-- Quotient; a quotient of integers that is not an integer is cut towards zero. -/
def div : IntDouble → IntDouble → IntDouble
  | fin x, fin y =>
    if y = 0 then (if x = 0 then nan else inf (decide (x < 0))) else fin (Int.tdiv x y)
  | inf a, fin y => inf (a != decide (y < 0))
  | fin _, inf _ => fin 0
  | _, _ => nan

/-- Ordered less-than. -/
def lt : IntDouble → IntDouble → Bool
  | fin x, fin y => decide (x < y)
  | fin _, inf b => !b
  | inf a, fin _ => a
  | inf a, inf b => a && !b
  | _, _ => false

/-- Ordered equality. -/
def eq : IntDouble → IntDouble → Bool
  | fin x, fin y => decide (x = y)
  | inf a, inf b => a == b
  | _, _ => false

/-- The operations of `IntDouble`. They agree with the IEEE operations where the exact
result is an integer below `2^53` in magnitude. -/
def ops : FloatOps IntDouble where
  fmul := mul
  fdiv := div
  fadd := add
  fsub := fun x y => add x (neg y)
  olt := lt
  ole := fun x y => lt x y || eq x y
  oeq := eq
  one := fun x y => lt x y || lt y x
  ogt := fun x y => lt y x
  oge := fun x y => lt y x || eq x y
  INFINITY := inf false

end IntDouble

/-- The table of the scenarios of the spec: column `a = [1,2,3,4]` at address 0 and
column `b = [10,20,30,40]` at address 1. -/
def demoHeap : Heap IntDouble
  | 0 => some { data := [.fin 1, .fin 2, .fin 3, .fin 4], size := 4 }
  | 1 => some { data := [.fin 10, .fin 20, .fin 30, .fin 40], size := 4 }
  | _ => none

/-- The array `inputs` that `ExecuteQuery` passes for the column list `a, b` of `demoHeap`. -/
def demoInputs : List (Option (List IntDouble)) := fillInputs demoHeap [some 0, some 1]

/-- `SELECT a*b WHERE a>2` over the demo table. -/
def demoMulWhere : Query IntDouble :=
  { columns := [some 0, some 1]
    select := .OPTYPE_binop .OPTYPE_mul (.OPTYPE_colmn 0) (.OPTYPE_colmn 1)
    where_ := some (.OPTYPE_binop .OPTYPE_gt (.OPTYPE_colmn 0) (.OPTYPE_const (.fin 2))) }

/-- `SELECT a/(a-a) WHERE a>2` over the demo table: the select value of every row is
`INFINITY`. -/
def demoDivZero : Query IntDouble :=
  { columns := [some 0, some 1]
    select := .OPTYPE_binop .OPTYPE_div (.OPTYPE_colmn 0)
      (.OPTYPE_binop .OPTYPE_sub (.OPTYPE_colmn 0) (.OPTYPE_colmn 0))
    where_ := some (.OPTYPE_binop .OPTYPE_gt (.OPTYPE_colmn 0) (.OPTYPE_const (.fin 2))) }

/-- `SELECT a WHERE a=2` over the demo table: one row passes the where clause. -/
def demoOneRow : Query IntDouble :=
  { columns := [some 0, some 1]
    select := .OPTYPE_colmn 0
    where_ := some (.OPTYPE_binop .OPTYPE_eq (.OPTYPE_colmn 0) (.OPTYPE_const (.fin 2))) }

/-- The where clause `a>0`, which every row of the demo table passes. -/
def demoAllPass : Operation IntDouble :=
  .OPTYPE_binop .OPTYPE_gt (.OPTYPE_colmn 0) (.OPTYPE_const (.fin 0))

/-- `SELECT a/(a-a) WHERE a<a` over the demo table: no row passes the where clause, and
the select value of every row would be `INFINITY`. -/
def demoNonePass : Query IntDouble :=
  { columns := [some 0, some 1]
    select := .OPTYPE_binop .OPTYPE_div (.OPTYPE_colmn 0)
      (.OPTYPE_binop .OPTYPE_sub (.OPTYPE_colmn 0) (.OPTYPE_colmn 0))
    where_ := some (.OPTYPE_binop .OPTYPE_lt (.OPTYPE_colmn 0) (.OPTYPE_colmn 0)) }

/-- `SELECT a+b` over the demo table. -/
def demoAdd : Query IntDouble :=
  { columns := [some 0, some 1]
    select := .OPTYPE_binop .OPTYPE_add (.OPTYPE_colmn 0) (.OPTYPE_colmn 1)
    where_ := none }

/-! ## The loop invariant -/

/-- Invariant of a call of `loop` with `size = N` on a result buffer of `L` elements:
the buffer keeps its length, `0 ≤ index ≤ N`, the slot `result_index` exists when there is
a where clause and its value (0 when there is no slot) is between 0 and `index`; inside
the loop body `index < N`; `body_store` uses the value that `index` holds; only after a
store may `result_index` be `index + 1`, until `index` is increased; a returned value is
between 0 and `N`. -/
def Inv {F : Type} (q : Query F) (N : Int) (L : Nat) (s : State F) : Prop :=
  s.result.length = L ∧ 0 ≤ s.index ∧ s.index ≤ N ∧ 0 ≤ s.result_index.getD 0 ∧
  (q.where_.isSome → s.result_index.isSome) ∧
  match s.block with
  | .condition => s.result_index.getD 0 ≤ s.index
  | .end_block => s.result_index.getD 0 ≤ s.index
  | .body_condition => s.index < N ∧ s.result_index.getD 0 ≤ s.index
  | .body_main => s.index < N ∧ s.result_index.getD 0 ≤ s.index
  | .overflow_error => s.index < N ∧ s.result_index.getD 0 ≤ s.index
  | .body_store index_body _ =>
    index_body = s.index ∧ s.index < N ∧ s.result_index.getD 0 ≤ s.index
  | .increment => s.index < N ∧ s.result_index.getD 0 ≤ s.index + 1
  | .returned v => 0 ≤ v ∧ v ≤ N
  | .fault => True

/-! ## Reference definitions that follow the spec -/

/-- The pipeline of section 4.4 of the spec, entry by entry: a second definition of the
pass list, to be compared with `InitializePassManager`. Entry 5 is "scalar replacement of
aggregates (SSA form)". -/
def specPipeline : List Pass :=
  [ .TargetMachinePasses, .CFGSimplification, .PromoteMemoryToRegister,
    .InstructionCombining, .ScalarReplAggregatesSSA, .InstructionCombining,
    .JumpThreading, .InstructionCombining, .Reassociate, .EarlyCSE, .LoopIdiom,
    .LoopRotate, .LICM, .LoopUnswitch, .InstructionCombining, .IndVarSimplify,
    .LoopDeletion, .LoopUnroll, .LoopVectorize, .InstructionCombining, .GVN, .MemCpyOpt,
    .SCCP, .InstructionCombining, .SLPVectorize, .AggressiveDCE, .InstructionCombining ]

/-- The two types of the values of an operation tree. -/
inductive Ty where
  | double
  | i1
  deriving DecidableEq, Repr

/-- The type of the result of a binary operation on operands of the given types, by the
invariants of the data model of the spec: arithmetic takes and gives doubles, comparisons
take doubles and give a boolean, `and` and `or` take and give booleans. -/
def binopType : OpType → Ty → Ty → Option Ty
  | .OPTYPE_mul, .double, .double => some .double
  | .OPTYPE_div, .double, .double => some .double
  | .OPTYPE_add, .double, .double => some .double
  | .OPTYPE_sub, .double, .double => some .double
  | .OPTYPE_lt, .double, .double => some .i1
  | .OPTYPE_le, .double, .double => some .i1
  | .OPTYPE_eq, .double, .double => some .i1
  | .OPTYPE_ne, .double, .double => some .i1
  | .OPTYPE_gt, .double, .double => some .i1
  | .OPTYPE_ge, .double, .double => some .i1
  | .OPTYPE_and, .i1, .i1 => some .i1
  | .OPTYPE_or, .i1, .i1 => some .i1
  | _, _, _ => none

/-- The type of a well-typed operation tree: constants and column references are doubles,
a binary operation has the type that `binopType` gives for the types of its children.
`none` for a tree that is not well-typed. -/
def Operation.typeOf {F : Type} : Operation F → Option Ty
  | .OPTYPE_const _ => some .double
  | .OPTYPE_colmn _ => some .double
  | .OPTYPE_other => none
  | .OPTYPE_binop optype l r =>
    match l.typeOf, r.typeOf with
    | some tl, some tr => binopType optype tl tr
    | _, _ => none

/-- The columns (addresses) that an operation tree refers to. -/
def Operation.columnRefs {F : Type} : Operation F → List Nat
  | .OPTYPE_const _ => []
  | .OPTYPE_colmn c => [c]
  | .OPTYPE_other => []
  | .OPTYPE_binop _ l r => l.columnRefs ++ r.columnRefs

mutual

/-- The reference evaluation `eval(op, index)` of the spec for a tree of doubles:
`Constant(v)` gives `v`, `ColumnRef(c)` gives `c.data[index]`, the arithmetic kinds give
the floating-point product, quotient, sum, difference of the two evaluated children.
`none` when an element outside a column is read (or the tree is no tree of doubles). -/
def evalDouble {F : Type} (fo : FloatOps F) (heap : Heap F) : Operation F → Int → Option F
  | .OPTYPE_const v, _ => some v
  | .OPTYPE_colmn c, index => (heap c).bind (fun col => loadAt col.data index)
  | .OPTYPE_binop .OPTYPE_mul l r, index =>
    (evalDouble fo heap l index).bind fun x =>
      (evalDouble fo heap r index).map fun y => fo.fmul x y
  | .OPTYPE_binop .OPTYPE_div l r, index =>
    (evalDouble fo heap l index).bind fun x =>
      (evalDouble fo heap r index).map fun y => fo.fdiv x y
  | .OPTYPE_binop .OPTYPE_add l r, index =>
    (evalDouble fo heap l index).bind fun x =>
      (evalDouble fo heap r index).map fun y => fo.fadd x y
  | .OPTYPE_binop .OPTYPE_sub l r, index =>
    (evalDouble fo heap l index).bind fun x =>
      (evalDouble fo heap r index).map fun y => fo.fsub x y
  | _, _ => none

/-- The reference evaluation `eval(op, index)` of the spec for a boolean tree: the
comparison kinds give the ordered comparison of the two evaluated children, `and` and `or`
give the conjunction and the disjunction of the two evaluated children; both children are
evaluated in every case. -/
def evalBool {F : Type} (fo : FloatOps F) (heap : Heap F) : Operation F → Int → Option Bool
  | .OPTYPE_binop .OPTYPE_lt l r, index =>
    (evalDouble fo heap l index).bind fun x =>
      (evalDouble fo heap r index).map fun y => fo.olt x y
  | .OPTYPE_binop .OPTYPE_le l r, index =>
    (evalDouble fo heap l index).bind fun x =>
      (evalDouble fo heap r index).map fun y => fo.ole x y
  | .OPTYPE_binop .OPTYPE_eq l r, index =>
    (evalDouble fo heap l index).bind fun x =>
      (evalDouble fo heap r index).map fun y => fo.oeq x y
  | .OPTYPE_binop .OPTYPE_ne l r, index =>
    (evalDouble fo heap l index).bind fun x =>
      (evalDouble fo heap r index).map fun y => fo.one x y
  | .OPTYPE_binop .OPTYPE_gt l r, index =>
    (evalDouble fo heap l index).bind fun x =>
      (evalDouble fo heap r index).map fun y => fo.ogt x y
  | .OPTYPE_binop .OPTYPE_ge l r, index =>
    (evalDouble fo heap l index).bind fun x =>
      (evalDouble fo heap r index).map fun y => fo.oge x y
  | .OPTYPE_binop .OPTYPE_and l r, index =>
    (evalBool fo heap l index).bind fun a =>
      (evalBool fo heap r index).map fun b => a && b
  | .OPTYPE_binop .OPTYPE_or l r, index =>
    (evalBool fo heap l index).bind fun a =>
      (evalBool fo heap r index).map fun b => a || b
  | _, _ => none

end

/-- What IEEE 754 and the LLVM reference say about the comparisons of the target machine,
as far as the claims need it: an ordered comparison with a NaN operand is false, and minus
infinity is not equal to `INFINITY`. `isNaN` tells the NaNs, `negInfinity` is minus
infinity. -/
structure IEEEComparisons {F : Type} (fo : FloatOps F) (isNaN : F → Bool) (negInfinity : F) :
    Prop where
  olt_nan : ∀ x y, isNaN x = true ∨ isNaN y = true → fo.olt x y = false
  ole_nan : ∀ x y, isNaN x = true ∨ isNaN y = true → fo.ole x y = false
  oeq_nan : ∀ x y, isNaN x = true ∨ isNaN y = true → fo.oeq x y = false
  one_nan : ∀ x y, isNaN x = true ∨ isNaN y = true → fo.one x y = false
  ogt_nan : ∀ x y, isNaN x = true ∨ isNaN y = true → fo.ogt x y = false
  oge_nan : ∀ x y, isNaN x = true ∨ isNaN y = true → fo.oge x y = false
  oeq_negInfinity : fo.oeq negInfinity fo.INFINITY = false

/-! ## What `ReadQuery` stores -/

/-- The byte that `ReadQuery` stores in `buffer` for an input byte other than `;`: a
space for a newline, the byte itself otherwise. -/
def storedByte (b : Byte) : Byte := if b = byteOf '\n' then byteOf ' ' else b

/-! ## Measures for the termination of `loop` -/

/-- The number of times control goes from `condition` into the loop body (to
`body_condition` or `body_main`) during the first `n` basic blocks executed from `s`. -/
def bodyEntries {F : Type} (fo : FloatOps F) (q : Query F) (handles : Handles F) (size : Int) :
    Nat → State F → Nat
  | 0, _ => 0
  | n + 1, s =>
    (match s.block with
      | .condition => if s.index < size then 1 else 0
      | _ => 0) + bodyEntries fo q handles size n (step fo q handles size s)

/-- Inside the loop body `0 ≤ index < size`; elsewhere `0 ≤ index`. -/
def InBody {F : Type} (size : Int) (s : State F) : Prop :=
  0 ≤ s.index ∧
  match s.block with
  | .body_condition => s.index < size
  | .body_main => s.index < size
  | .body_store _ _ => s.index < size
  | .increment => s.index < size
  | .overflow_error => s.index < size
  | _ => True

/-- A bound for the number of basic blocks that `loop` still executes from `s`: at most
five per remaining row and two to leave the loop. -/
def blocksLeft {F : Type} (size : Int) (s : State F) : Nat :=
  match s.block with
  | .condition => 5 * (size - s.index).toNat + 2
  | .body_condition => 5 * (size - s.index).toNat + 1
  | .body_main => 5 * (size - s.index).toNat
  | .body_store _ _ => 5 * (size - s.index).toNat - 1
  | .increment => 5 * (size - s.index).toNat - 2
  | .end_block => 1
  | .overflow_error => 1
  | .returned _ => 0
  | .fault => 0

/-- A bound for the number of times that control still enters the loop body from `s`: the
rows from `index` on, the current one not counted when control is inside the body. -/
def entriesLeft {F : Type} (size : Int) (s : State F) : Nat :=
  match s.block with
  | .condition => (size - s.index).toNat
  | .body_condition => (size - s.index).toNat - 1
  | .body_main => (size - s.index).toNat - 1
  | .body_store _ _ => (size - s.index).toNat - 1
  | .increment => (size - s.index).toNat - 1
  | _ => 0

/-! ## Basic facts about the machine -/

section Machine

variable {F : Type} (fo : FloatOps F) (q : Query F) (h : Handles F) (size : Int)

theorem wrap64_of_range {x : Int} (h1 : -9223372036854775808 ≤ x)
    (h2 : x < 9223372036854775808) : wrap64 x = x := by
  unfold wrap64
  omega

theorem wrap64_succ_cast (i : Nat) (hi : (i : Int) < 9223372036854775807) :
    wrap64 ((i : Int) + 1) = ((i + 1 : Nat) : Int) := by
  rw [wrap64_of_range (by omega) (by omega)]
  push_cast
  rfl

theorem loadAt_cast (a : List F) (i : Nat) : loadAt a (i : Int) = a.get? i := by
  simp [loadAt]

theorem storeAt_cast (a : List F) (i : Nat) (x : F) (hi : i < a.length) :
    storeAt a (i : Int) x = some (a.set i x) := by
  simp [storeAt, hi]

theorem run_add (a b : Nat) (s : State F) :
    run fo q h size (a + b) s = run fo q h size b (run fo q h size a s) := by
  induction a generalizing s with
  | zero => simp [run]
  | succ a ih =>
    rw [Nat.succ_add]
    simp only [run]
    exact ih _

theorem run_succ_last (n : Nat) (s : State F) :
    run fo q h size (n + 1) s = step fo q h size (run fo q h size n s) := by
  rw [run_add]
  rfl

theorem step_returned (s : State F) (v : Int) (hs : s.block = .returned v) :
    step fo q h size s = s := by
  simp [step, hs]

theorem step_fault (s : State F) (hs : s.block = .fault) : step fo q h size s = s := by
  simp [step, hs]

theorem run_returned (n : Nat) (s : State F) (v : Int) (hs : s.block = .returned v) :
    run fo q h size n s = s := by
  induction n with
  | zero => rfl
  | succ n ih => simp only [run]; rw [step_returned fo q h size s v hs]; exact ih

theorem run_fault (n : Nat) (s : State F) (hs : s.block = .fault) :
    run fo q h size n s = s := by
  induction n with
  | zero => rfl
  | succ n ih => simp only [run]; rw [step_fault fo q h size s hs]; exact ih

/-- Once `loop` has returned, more fuel changes nothing. -/
theorem run_of_le_returned {n m : Nat} (hnm : n ≤ m) (s : State F) (v : Int)
    (hs : (run fo q h size n s).block = .returned v) :
    run fo q h size m s = run fo q h size n s := by
  obtain ⟨k, rfl⟩ := Nat.exists_eq_add_of_le hnm
  rw [run_add]
  exact run_returned fo q h size k _ v hs

theorem run_of_le_fault {n m : Nat} (hnm : n ≤ m) (s : State F)
    (hs : (run fo q h size n s).block = .fault) :
    run fo q h size m s = run fo q h size n s := by
  obtain ⟨k, rfl⟩ := Nat.exists_eq_add_of_le hnm
  rw [run_add]
  exact run_fault fo q h size k _ hs

/-! ### One row -/

/-- A row of a query without where clause whose select value is not `INFINITY`: four
blocks later control is back at `condition`, the value is stored at `result[index]`. -/
theorem row_nowhere (hq : q.where_ = none) (i : Nat) (ri : Option Int) (r : List F) (x : F)
    (hi : (i : Int) < size) (hsz : size < 9223372036854775808)
    (hS : PerformOperation fo h q.select (i : Int) = some (.double x))
    (hx : fo.oeq x fo.INFINITY = false) (hlen : i < r.length) :
    run fo q h size 4 ⟨.condition, (i : Int), ri, r⟩
      = ⟨.condition, ((i + 1 : Nat) : Int), ri, r.set i x⟩ := by
  have hw := wrap64_succ_cast i (by omega)
  simp [run, step, hq, hi, hS, hx, storeAt_cast, hlen, hw]

/-- A row of a query without where clause whose select value is `INFINITY`: three blocks
later `loop` has returned `OVERFLOW_CODE`. -/
theorem row_nowhere_overflow (hq : q.where_ = none) (i : Nat) (ri : Option Int) (r : List F)
    (x : F) (hi : (i : Int) < size)
    (hS : PerformOperation fo h q.select (i : Int) = some (.double x))
    (hx : fo.oeq x fo.INFINITY = true) :
    run fo q h size 3 ⟨.condition, (i : Int), ri, r⟩
      = ⟨.returned OVERFLOW_CODE, (i : Int), ri, r⟩ := by
  simp [run, step, hq, hi, hS, hx]

/-- A row that passes the where clause and whose select value is not `INFINITY`: five
blocks later control is back at `condition`, the value is stored at
`result[result_index]` and `result_index` is one more. -/
theorem row_where_true (w : Operation F) (hq : q.where_ = some w) (i k : Nat) (r : List F)
    (x : F) (hi : (i : Int) < size) (hsz : size < 9223372036854775808) (hk : k ≤ i)
    (hW : PerformOperation fo h w (i : Int) = some (.i1 true))
    (hS : PerformOperation fo h q.select (i : Int) = some (.double x))
    (hx : fo.oeq x fo.INFINITY = false) (hlen : k < r.length) :
    run fo q h size 5 ⟨.condition, (i : Int), some (k : Int), r⟩
      = ⟨.condition, ((i + 1 : Nat) : Int), some ((k + 1 : Nat) : Int), r.set k x⟩ := by
  have hw := wrap64_succ_cast i (by omega)
  have hw2 := wrap64_succ_cast k (by omega)
  simp [run, step, hq, hi, hS, hW, hx, storeAt_cast, hlen, hw, hw2]

/-- A row that passes the where clause and whose select value is `INFINITY`: four blocks
later `loop` has returned `OVERFLOW_CODE`. -/
theorem row_where_overflow (w : Operation F) (hq : q.where_ = some w) (i : Nat)
    (ri : Option Int) (r : List F) (x : F) (hi : (i : Int) < size)
    (hW : PerformOperation fo h w (i : Int) = some (.i1 true))
    (hS : PerformOperation fo h q.select (i : Int) = some (.double x))
    (hx : fo.oeq x fo.INFINITY = true) :
    run fo q h size 4 ⟨.condition, (i : Int), ri, r⟩
      = ⟨.returned OVERFLOW_CODE, (i : Int), ri, r⟩ := by
  simp [run, step, hq, hi, hS, hW, hx]

/-- A row that the where clause rejects: three blocks later control is back at
`condition` and nothing else has changed. -/
theorem row_where_false (w : Operation F) (hq : q.where_ = some w) (i : Nat)
    (ri : Option Int) (r : List F) (hi : (i : Int) < size)
    (hsz : size < 9223372036854775808)
    (hW : PerformOperation fo h w (i : Int) = some (.i1 false)) :
    run fo q h size 3 ⟨.condition, (i : Int), ri, r⟩
      = ⟨.condition, ((i + 1 : Nat) : Int), ri, r⟩ := by
  have hw := wrap64_succ_cast i (by omega)
  simp [run, step, hq, hi, hW, hw]

/-- At `condition` with `index ≥ size`, two blocks later `loop` has returned: `index`
without where clause, `result_index` with one. -/
theorem exit_nowhere (hq : q.where_ = none) (i : Int) (ri : Option Int) (r : List F)
    (hi : size ≤ i) :
    run fo q h size 2 ⟨.condition, i, ri, r⟩ = ⟨.returned i, i, ri, r⟩ := by
  have : ¬ i < size := by omega
  simp [run, step, hq, this]

theorem exit_where (w : Operation F) (hq : q.where_ = some w) (i k : Int) (r : List F)
    (hi : size ≤ i) :
    run fo q h size 2 ⟨.condition, i, some k, r⟩ = ⟨.returned k, i, some k, r⟩ := by
  have : ¬ i < size := by omega
  simp [run, step, hq, this]

/-! ### The rows before a given one -/

theorem set_append_drop (l r0 : List F) (x : F) (hl : l.length < r0.length) :
    (l ++ r0.drop l.length).set l.length x = (l ++ [x]) ++ r0.drop (l.length + 1) := by
  have hd : (r0.drop l.length).set 0 x = x :: r0.drop (l.length + 1) := by
    rw [List.drop_eq_getElem_cons hl]
    rfl
  simp [List.set_append, hd]

theorem filter_range_succ (wh : Nat → Bool) (j : Nat) :
    (List.range (j + 1)).filter wh
      = (List.range j).filter wh ++ (if wh j then [j] else []) := by
  rw [List.range_succ, List.filter_append]
  by_cases hj : wh j <;> simp [hj]

theorem length_filter_range_le (wh : Nat → Bool) (j : Nat) :
    ((List.range j).filter wh).length ≤ j := by
  calc ((List.range j).filter wh).length ≤ (List.range j).length := List.length_filter_le _ _
    _ = j := List.length_range j

/-- Loop invariant of a query with where clause. If the where clause has the value `wh i`
on the rows `i < j`, the rows among them that pass it have the select value `sel i`, and
none of these is `INFINITY`, control reaches `condition` with `index = j` after at most
`5 * j` blocks; `result_index` is the number of rows below `j` that pass, and `result`
starts with their select values, in order, followed by what the buffer held before. -/
theorem prefix_where (w : Operation F) (hq : q.where_ = some w) (N : Nat)
    (hsz : (N : Int) < 9223372036854775808) (wh : Nat → Bool) (sel : Nat → F) (r0 : List F)
    (hlen : N ≤ r0.length) (j : Nat) (hj : j ≤ N)
    (hW : ∀ i, i < j → PerformOperation fo h w (i : Int) = some (.i1 (wh i)))
    (hS : ∀ i, i < j → wh i = true →
      PerformOperation fo h q.select (i : Int) = some (.double (sel i)))
    (hx : ∀ i, i < j → wh i = true → fo.oeq (sel i) fo.INFINITY = false) :
    ∃ n, n ≤ 5 * j ∧
      run fo q h (N : Int) n ⟨.condition, 0, some 0, r0⟩
        = ⟨.condition, (j : Int), some ((((List.range j).filter wh).length : Nat) : Int),
            ((List.range j).filter wh).map sel
              ++ r0.drop ((List.range j).filter wh).length⟩ := by
  induction j with
  | zero => exact ⟨0, le_refl _, by simp [run]⟩
  | succ j ih =>
    obtain ⟨n, hn, hrun⟩ := ih (by omega) (fun i hi => hW i (by omega))
      (fun i hi => hS i (by omega)) (fun i hi => hx i (by omega))
    have hk := length_filter_range_le wh j
    have hjN : (j : Int) < (N : Int) := by exact_mod_cast (show j < N by omega)
    cases hwj : wh j with
    | false =>
      refine ⟨n + 3, by omega, ?_⟩
      rw [run_add, hrun, row_where_false fo q h N w hq j _ _ hjN hsz (by rw [hW j (by omega), hwj])]
      simp [filter_range_succ, hwj]
    | true =>
      refine ⟨n + 5, by omega, ?_⟩
      rw [run_add, hrun,
        row_where_true fo q h N w hq j _ _ (sel j) hjN hsz hk (by rw [hW j (by omega), hwj])
          (hS j (by omega) hwj) (hx j (by omega) hwj) (by simp; omega)]
      have hl : (List.map sel ((List.range j).filter wh)).length < r0.length := by
        simp; omega
      have := set_append_drop (List.map sel ((List.range j).filter wh)) r0 (sel j) hl
      simp only [List.length_map] at this
      simp [filter_range_succ, hwj, this]

/-- Loop invariant of a query without where clause. If the rows `i < j` have the select
value `sel i` and none of these is `INFINITY`, control reaches `condition` with
`index = j` after `4 * j` blocks, and `result` starts with these values, followed by what
the buffer held before. -/
theorem prefix_nowhere (hq : q.where_ = none) (N : Nat)
    (hsz : (N : Int) < 9223372036854775808) (sel : Nat → F) (r0 : List F)
    (hlen : N ≤ r0.length) (j : Nat) (hj : j ≤ N)
    (hS : ∀ i, i < j → PerformOperation fo h q.select (i : Int) = some (.double (sel i)))
    (hx : ∀ i, i < j → fo.oeq (sel i) fo.INFINITY = false) :
    run fo q h (N : Int) (4 * j) ⟨.condition, 0, none, r0⟩
      = ⟨.condition, (j : Int), none, (List.range j).map sel ++ r0.drop j⟩ := by
  induction j with
  | zero => simp [run]
  | succ j ih =>
    have hrun := ih (by omega) (fun i hi => hS i (by omega)) (fun i hi => hx i (by omega))
    have hjN : (j : Int) < (N : Int) := by exact_mod_cast (show j < N by omega)
    rw [show 4 * (j + 1) = 4 * j + 4 by ring, run_add, hrun,
      row_nowhere fo q h N hq j _ _ (sel j) hjN hsz (hS j (by omega)) (hx j (by omega))
        (by simp; omega)]
    have hl : (List.map sel (List.range j)).length < r0.length := by simp; omega
    have := set_append_drop (List.map sel (List.range j)) r0 (sel j) hl
    simp only [List.length_map, List.length_range] at this
    simp [List.range_succ, this]

/-! ### Overflow in the first row that produces `INFINITY` -/

theorem loop_where_overflow (w : Operation F) (hq : q.where_ = some w) (N : Nat)
    (hsz : (N : Int) < 9223372036854775808) (wh : Nat → Bool) (sel : Nat → F) (r0 : List F)
    (hlen : N ≤ r0.length)
    (hW : ∀ i, i < N → PerformOperation fo h w (i : Int) = some (.i1 (wh i)))
    (hS : ∀ i, i < N → wh i = true →
      PerformOperation fo h q.select (i : Int) = some (.double (sel i)))
    (hov : ∃ i, i < N ∧ wh i = true ∧ fo.oeq (sel i) fo.INFINITY = true) :
    ∃ n, n ≤ 5 * N ∧
      (run fo q h (N : Int) n ⟨.condition, 0, some 0, r0⟩).block = .returned OVERFLOW_CODE := by
  classical
  have hj := Nat.find_spec hov
  have hmin := fun i (hi : i < Nat.find hov) => Nat.find_min hov hi
  generalize Nat.find hov = j at hj hmin
  obtain ⟨hjN, hwj, hxj⟩ := hj
  obtain ⟨n, hn, hrun⟩ := prefix_where fo q h w hq N hsz wh sel r0 hlen j (by omega)
    (fun i hi => hW i (by omega)) (fun i hi => hS i (by omega))
    (fun i hi hwi => by
      have := hmin i hi
      by_contra hc
      exact this ⟨by omega, hwi, by simpa using hc⟩)
  refine ⟨n + 4, by omega, ?_⟩
  rw [run_add, hrun, row_where_overflow fo q h N w hq j _ _ (sel j)
    (by exact_mod_cast hjN) (by rw [hW j hjN, hwj]) (hS j hjN hwj) hxj]

theorem loop_nowhere_overflow (hq : q.where_ = none) (N : Nat)
    (hsz : (N : Int) < 9223372036854775808) (sel : Nat → F) (r0 : List F)
    (hlen : N ≤ r0.length)
    (hS : ∀ i, i < N → PerformOperation fo h q.select (i : Int) = some (.double (sel i)))
    (hov : ∃ i, i < N ∧ fo.oeq (sel i) fo.INFINITY = true) :
    ∃ n, n ≤ 5 * N ∧
      (run fo q h (N : Int) n ⟨.condition, 0, none, r0⟩).block = .returned OVERFLOW_CODE := by
  classical
  have hj := Nat.find_spec hov
  have hmin := fun i (hi : i < Nat.find hov) => Nat.find_min hov hi
  generalize Nat.find hov = j at hj hmin
  obtain ⟨hjN, hxj⟩ := hj
  have hrun := prefix_nowhere fo q h hq N hsz sel r0 hlen j (by omega)
    (fun i hi => hS i (by omega))
    (fun i hi => by
      have := hmin i hi
      by_contra hc
      exact this ⟨by omega, by simpa using hc⟩)
  refine ⟨4 * j + 3, by omega, ?_⟩
  rw [run_add, hrun, row_nowhere_overflow fo q h N hq j _ _ (sel j)
    (by exact_mod_cast hjN) (hS j hjN) hxj]

end Machine

/-! ## The claims about the loop -/

/-- C1. For a query with a where clause `w`, a column length `N` (which fits the signed
64-bit parameter `size`) and a result buffer of at least `N` elements: if on the rows
`i < N` the where clause has the value `wh i`, the rows that pass it have the select
value `sel i`, and none of these values is `INFINITY`, then `loop` returns (within
`5 * N + 2` basic blocks) the number of rows below `N` that pass the where clause, and
`result` holds the select values of exactly these rows in ascending order of the row,
the k-th of them at `result[k]`, followed by the untouched rest of the buffer. -/
theorem C1_loop_where_returns_survivors {F : Type} (fo : FloatOps F) (q : Query F)
    (w : Operation F) (hq : q.where_ = some w) (inputs : List (Option (List F))) (N : Nat)
    (hsz : (N : Int) < 9223372036854775808) (result : List F) (hlen : N ≤ result.length)
    (wh : Nat → Bool) (sel : Nat → F)
    (hW : ∀ i, i < N → PerformOperation fo (entryHandles inputs q.columns 0 (fun _ => none))
      w (i : Int) = some (.i1 (wh i)))
    (hS : ∀ i, i < N → wh i = true →
      PerformOperation fo (entryHandles inputs q.columns 0 (fun _ => none)) q.select (i : Int)
        = some (.double (sel i)))
    (hx : ∀ i, i < N → wh i = true → fo.oeq (sel i) fo.INFINITY = false)
    (fuel : Nat) (hfuel : 5 * N + 2 ≤ fuel) :
    (loop_func fo q fuel result inputs (N : Int)).block
        = .returned ((((List.range N).filter wh).length : Nat) : Int) ∧
      (loop_func fo q fuel result inputs (N : Int)).result
        = ((List.range N).filter wh).map sel
            ++ result.drop ((List.range N).filter wh).length := by
  obtain ⟨n, hn, hrun⟩ := prefix_where fo q _ w hq N hsz wh sel result hlen N (le_refl N)
    hW hS hx
  have h2 : run fo q (entryHandles inputs q.columns 0 (fun _ => none)) (N : Int) (n + 2)
      (entry q result) = ⟨.returned ((((List.range N).filter wh).length : Nat) : Int), (N : Int),
        some ((((List.range N).filter wh).length : Nat) : Int),
        ((List.range N).filter wh).map sel
            ++ result.drop ((List.range N).filter wh).length⟩ := by
    have he : entry q result = ⟨.condition, 0, some 0, result⟩ := by simp [entry, hq]
    rw [he, run_add, hrun, exit_where fo q _ N w hq _ _ _ (le_refl _)]
  have h3 := run_of_le_returned fo q (entryHandles inputs q.columns 0 (fun _ => none)) (N : Int)
    (show n + 2 ≤ fuel by omega) (entry q result) _ (by rw [h2])
  unfold loop_func
  rw [h3, h2]
  exact ⟨rfl, rfl⟩

set_option maxRecDepth 10000 in
/-- Scenario 2 of the spec, `SELECT a*b WHERE a>2` over the demo table: `loop` returns 2
and `result` starts with 90, 160. -/
theorem C1_loop_where_returns_survivors_witness :
    (loop_func IntDouble.ops demoMulWhere 22 [.nan, .nan, .nan, .nan] demoInputs 4).block
        = .returned 2 ∧
      (loop_func IntDouble.ops demoMulWhere 22 [.nan, .nan, .nan, .nan] demoInputs 4).result
        = [.fin 90, .fin 160, .nan, .nan] :=
  have h := C1_loop_where_returns_survivors IntDouble.ops demoMulWhere _ rfl demoInputs 4
    (by decide) [.nan, .nan, .nan, .nan] (by decide) (fun i => decide (2 ≤ i))
    (fun i => .fin ((i + 1) * (10 * (i + 1)))) (by decide) (by decide) (by decide) 22
    (by decide)
  ⟨h.1.trans (by decide), h.2.trans (by decide)⟩

/-- C2. For a query without where clause, a column length `N` (which fits the signed
64-bit parameter `size`) and a result buffer of at least `N` elements: if the rows
`i < N` have the select value `sel i` and none of these values is `INFINITY`, then `loop`
returns `N` (within `4 * N + 2` basic blocks) and `result[i]` is `sel i` for every
`i < N`; the rest of the buffer is untouched. -/
theorem C2_loop_nowhere_returns_all {F : Type} (fo : FloatOps F) (q : Query F)
    (hq : q.where_ = none) (inputs : List (Option (List F))) (N : Nat)
    (hsz : (N : Int) < 9223372036854775808) (result : List F) (hlen : N ≤ result.length)
    (sel : Nat → F)
    (hS : ∀ i, i < N →
      PerformOperation fo (entryHandles inputs q.columns 0 (fun _ => none)) q.select (i : Int)
        = some (.double (sel i)))
    (hx : ∀ i, i < N → fo.oeq (sel i) fo.INFINITY = false)
    (fuel : Nat) (hfuel : 4 * N + 2 ≤ fuel) :
    (loop_func fo q fuel result inputs (N : Int)).block = .returned (N : Int) ∧
      (loop_func fo q fuel result inputs (N : Int)).result
        = (List.range N).map sel ++ result.drop N ∧
      ∀ i, i < N → (loop_func fo q fuel result inputs (N : Int)).result.get? i
        = some (sel i) := by
  have hrun := prefix_nowhere fo q (entryHandles inputs q.columns 0 (fun _ => none)) hq N hsz
    sel result hlen N (le_refl N) hS hx
  have h2 : run fo q (entryHandles inputs q.columns 0 (fun _ => none)) (N : Int) (4 * N + 2)
      (entry q result)
        = ⟨.returned (N : Int), (N : Int), none, (List.range N).map sel ++ result.drop N⟩ := by
    have he : entry q result = ⟨.condition, 0, none, result⟩ := by simp [entry, hq]
    rw [he, run_add, hrun, exit_nowhere fo q _ N hq _ _ _ (le_refl _)]
  have h3 := run_of_le_returned fo q (entryHandles inputs q.columns 0 (fun _ => none)) (N : Int)
    hfuel (entry q result) _ (by rw [h2])
  unfold loop_func
  rw [h3, h2]
  refine ⟨rfl, rfl, fun i hi => ?_⟩
  simp [List.getElem?_append, hi]

set_option maxRecDepth 10000 in
/-- Scenario 1 of the spec, `SELECT a+b` over the demo table: `loop` returns 4 and
`result` is 11, 22, 33, 44. -/
theorem C2_loop_nowhere_returns_all_witness :
    (loop_func IntDouble.ops demoAdd 18 [.nan, .nan, .nan, .nan] demoInputs 4).block
        = .returned 4 ∧
      (loop_func IntDouble.ops demoAdd 18 [.nan, .nan, .nan, .nan] demoInputs 4).result
        = [.fin 11, .fin 22, .fin 33, .fin 44] :=
  have h := C2_loop_nowhere_returns_all IntDouble.ops demoAdd rfl demoInputs 4 (by decide)
    [.nan, .nan, .nan, .nan] (by decide) (fun i => .fin (11 * (i + 1))) (by decide)
    (by decide) 18 (by decide)
  ⟨h.1, h.2.1.trans (by decide)⟩

/-- C3. Let `N` be the size of the first column of the query (it fits the signed 64-bit
parameter `size`), let `wh i` tell whether row `i < N` is executed (the value of the where
clause, or `true` for every row when there is none) and let the executed rows have the
select value `sel i`. If the select value of some executed row is `INFINITY`, the call of
`loop` made by `ExecuteQuery` returns `OVERFLOW_CODE`, which is 1, and `ExecuteQuery`
returns `NULL`: the caller gets no table. -/
theorem C3_overflow_returns_sentinel_and_null {F : Type} (fo : FloatOps F) (heap : Heap F)
    (junk : Nat → F) (g : Globals) (q : Query F) (N : Nat)
    (hfirst : firstColumnSize heap q = some N) (hsz : (N : Int) < 9223372036854775808)
    (wh : Nat → Bool) (sel : Nat → F)
    (hW : ∀ w, q.where_ = some w → ∀ i, i < N →
      PerformOperation fo (entryHandles (fillInputs heap q.columns) q.columns 0 (fun _ => none))
        w (i : Int) = some (.i1 (wh i)))
    (hnone : q.where_ = none → ∀ i, i < N → wh i = true)
    (hS : ∀ i, i < N → wh i = true →
      PerformOperation fo (entryHandles (fillInputs heap q.columns) q.columns 0 (fun _ => none))
        q.select (i : Int) = some (.double (sel i)))
    (hov : ∃ i, i < N ∧ wh i = true ∧ fo.oeq (sel i) fo.INFINITY = true)
    (fuel : Nat) (hfuel : 5 * N ≤ fuel) :
    (loop_func fo q fuel ((List.range N).map junk) (fillInputs heap q.columns) (N : Int)).block
        = .returned OVERFLOW_CODE ∧
      OVERFLOW_CODE = 1 ∧
      (ExecuteQuery fo heap junk fuel g q).2 = .NULL := by
  have hloop : (loop_func fo q fuel ((List.range N).map junk) (fillInputs heap q.columns)
      (N : Int)).block = .returned OVERFLOW_CODE := by
    unfold loop_func
    cases hq : q.where_ with
    | none =>
      obtain ⟨n, hn, hrun⟩ := loop_nowhere_overflow fo q
        (entryHandles (fillInputs heap q.columns) q.columns 0 (fun _ => none)) hq N hsz sel
        ((List.range N).map junk) (by simp) (fun i hi => hS i hi (hnone hq i hi))
        (by obtain ⟨i, hi, _, hx⟩ := hov; exact ⟨i, hi, hx⟩)
      have he : entry q ((List.range N).map junk)
          = ⟨.condition, 0, none, (List.range N).map junk⟩ := by
        simp [entry, hq]
      rw [he, run_of_le_returned fo q _ _ (show n ≤ fuel by omega) _ _ hrun, hrun]
    | some w =>
      obtain ⟨n, hn, hrun⟩ := loop_where_overflow fo q
        (entryHandles (fillInputs heap q.columns) q.columns 0 (fun _ => none)) w hq N hsz wh sel
        ((List.range N).map junk) (by simp) (hW w hq) hS hov
      have he : entry q ((List.range N).map junk)
          = ⟨.condition, 0, some 0, (List.range N).map junk⟩ := by
        simp [entry, hq]
      rw [he, run_of_le_returned fo q _ _ (show n ≤ fuel by omega) _ _ hrun, hrun]
  refine ⟨hloop, rfl, ?_⟩
  have hwrap : wrap64 (N : Int) = (N : Int) := wrap64_of_range (by omega) hsz
  simp only [ExecuteQuery, hfirst, hwrap, hloop]
  simp

set_option maxRecDepth 10000 in
/-- `SELECT a/(a-a) WHERE a>2` over the demo table: the row `a = 3` is executed and its
select value is `INFINITY`; `loop` returns 1 and `ExecuteQuery` returns `NULL`. -/
theorem C3_overflow_returns_sentinel_and_null_witness :
    (loop_func IntDouble.ops demoDivZero 20 ((List.range 4).map (fun _ => IntDouble.nan))
        (fillInputs demoHeap demoDivZero.columns) 4).block = .returned 1 ∧
      (ExecuteQuery IntDouble.ops demoHeap (fun _ => .nan) 20 {} demoDivZero).2 = .NULL :=
  have h := C3_overflow_returns_sentinel_and_null IntDouble.ops demoHeap (fun _ => .nan) {}
    demoDivZero 4 rfl (by decide) (fun i => decide (2 ≤ i)) (fun _ => .inf false)
    (fun w hw => by
      have hw2 : w = .OPTYPE_binop .OPTYPE_gt (.OPTYPE_colmn 0) (.OPTYPE_const (.fin 2)) :=
        (Option.some.inj hw).symm
      subst hw2
      decide)
    (fun hn => by simp [demoDivZero] at hn) (by decide) ⟨2, by decide⟩ 20 (by decide)
  ⟨h.1, h.2.2⟩

set_option maxRecDepth 10000 in
/-- C4. `SELECT a WHERE a=2` over the demo table: exactly one row passes the where clause,
its select value is 2 and not `INFINITY`, `loop` returns the count 1, and `ExecuteQuery`
takes it for `OVERFLOW_CODE`: it prints the overflow message and returns `NULL` instead
of a table "Result" with one row. -/
theorem C4_one_surviving_row_returns_null :
    (∀ i : Nat, i < 4 → PerformOperation IntDouble.ops
        (entryHandles (fillInputs demoHeap demoOneRow.columns) demoOneRow.columns 0
          (fun _ => none))
        demoOneRow.select (i : Int) ≠ some (.double IntDouble.ops.INFINITY)) ∧
      (loop_func IntDouble.ops demoOneRow 20 ((List.range 4).map (fun _ => IntDouble.nan))
        (fillInputs demoHeap demoOneRow.columns) 4)
        = ⟨.returned 1, 4, some 1, [.fin 2, .nan, .nan, .nan]⟩ ∧
      ExecuteQuery IntDouble.ops demoHeap (fun _ => .nan) 20 {} demoOneRow
        = ([.LLVMRunFunctionPassManager InitializePassManager, .LLVMDumpModule,
            .LLVMCreateMCJITCompilerForModule, .stderr "ERROR: Overflow in calculation!\n"],
           .NULL) := by
  refine ⟨by decide, by decide, by decide⟩

/-- C6. For every query, with or without where clause, the call of `loop` with
`size = 0` returns 0 after two basic blocks (`condition`, `end`); at no point of the
execution is control in `body_store`, and the result buffer is what it was. -/
theorem C6_size_zero_returns_zero {F : Type} (fo : FloatOps F) (q : Query F)
    (result : List F) (inputs : List (Option (List F))) (fuel : Nat) :
    (loop_func fo q (fuel + 2) result inputs 0).block = .returned 0 ∧
      (loop_func fo q fuel result inputs 0).result = result ∧
      ∀ ib x, (loop_func fo q fuel result inputs 0).block ≠ .body_store ib x := by
  have h2 : ∀ n, run fo q (entryHandles inputs q.columns 0 (fun _ => none)) 0 (n + 2)
      (entry q result)
        = ⟨.returned 0, 0, if q.where_.isSome then some 0 else none, result⟩ := by
    intro n
    have h : run fo q (entryHandles inputs q.columns 0 (fun _ => none)) 0 2 (entry q result)
        = ⟨.returned 0, 0, if q.where_.isSome then some 0 else none, result⟩ := by
      cases hq : q.where_ <;> simp [run, step, entry, hq]
    rw [run_of_le_returned fo q _ _ (show 2 ≤ n + 2 by omega) _ 0 (by rw [h]), h]
  unfold loop_func
  refine ⟨by rw [h2], ?_, ?_⟩
  · match fuel with
    | 0 => simp [run, entry]
    | 1 => simp [run, step, entry]
    | n + 2 => rw [h2]
  · intro ib x
    match fuel with
    | 0 => simp [run, entry]
    | 1 => simp [run, step, entry]
    | n + 2 => rw [h2]; simp

/-! ## Bounds of the stores -/

theorem inv_entry {F : Type} (q : Query F) (N : Nat) (result : List F) :
    Inv q (N : Int) result.length (entry q result) := by
  cases hq : q.where_ <;> simp [Inv, entry, hq]

theorem inv_step {F : Type} (fo : FloatOps F) (q : Query F) (h : Handles F) (N : Nat) (L : Nat)
    (hsz : (N : Int) < 9223372036854775808) (s : State F)
    (hs : Inv q (N : Int) L s) : Inv q (N : Int) L (step fo q h (N : Int) s) := by
  obtain ⟨b, i, ri, r⟩ := s
  obtain ⟨hlen, hi0, hiN, hri0, hsome, hb⟩ := hs
  simp only at hlen hi0 hiN hri0 hsome hb
  cases b with
  | condition =>
    simp only at hb
    by_cases hc : i < (N : Int)
    · cases hq : q.where_.isSome
      · have hst : step fo q h (N : Int) ⟨.condition, i, ri, r⟩ = ⟨.body_main, i, ri, r⟩ := by
          simp [step, hc, hq]
        rw [hst]
        exact ⟨hlen, hi0, hiN, hri0, hsome, hc, hb⟩
      · have hst : step fo q h (N : Int) ⟨.condition, i, ri, r⟩
            = ⟨.body_condition, i, ri, r⟩ := by
          simp [step, hc, hq]
        rw [hst]
        exact ⟨hlen, hi0, hiN, hri0, hsome, hc, hb⟩
    · have hst : step fo q h (N : Int) ⟨.condition, i, ri, r⟩ = ⟨.end_block, i, ri, r⟩ := by
        simp [step, hc]
      rw [hst]
      exact ⟨hlen, hi0, hiN, hri0, hsome, hb⟩
  | body_condition =>
    obtain ⟨hiN2, hri⟩ := hb
    simp only [step]
    split
    · split
      all_goals simp_all [Inv]
      omega
    · simp_all [Inv]
  | body_main =>
    obtain ⟨hiN2, hri⟩ := hb
    simp only [step]
    split
    · split <;> simp_all [Inv]
    · simp_all [Inv]
  | body_store ib x =>
    simp only at hb
    obtain ⟨hib, hiN2, hri⟩ := hb
    simp only [step]
    cases hq : q.where_ with
    | none =>
      simp only []
      cases hst : storeAt r ib x with
      | none => simp_all [Inv]
      | some r2 =>
        have hr2 : r2.length = L := by
          simp only [storeAt] at hst
          split at hst
          · cases hst; simpa using hlen
          · cases hst
        simp_all [Inv]
        omega
    | some w =>
      simp only []
      cases ri with
      | none => simp_all [Inv]
      | some k =>
        simp only [Option.getD_some] at hri hri0
        cases hst : storeAt r k x with
        | none => simp_all [Inv]
        | some r2 =>
          have hr2 : r2.length = L := by
            simp only [storeAt] at hst
            split at hst
            · cases hst; simpa using hlen
            · cases hst
          have hw : wrap64 (k + 1) = k + 1 := wrap64_of_range (by omega) (by omega)
          simp_all [Inv]
          omega
  | increment =>
    obtain ⟨hiN2, hri⟩ := hb
    have hw : wrap64 (i + 1) = i + 1 := wrap64_of_range (by omega) (by omega)
    simp_all [Inv, step]
    omega
  | end_block =>
    simp only at hb
    simp only [step]
    cases hq : q.where_ with
    | none => simp_all [Inv]
    | some w =>
      cases ri with
      | none => simp_all [Inv]
      | some k => simp_all [Inv]; omega
  | overflow_error =>
    obtain ⟨hiN2, hri⟩ := hb
    simp_all [Inv, step, OVERFLOW_CODE]
    omega
  | returned v => simpa [Inv, step] using ⟨hlen, hi0, hiN, hri0, hsome, hb⟩
  | fault => simpa [Inv, step] using ⟨hlen, hi0, hiN, hri0, hsome⟩

theorem inv_run {F : Type} (fo : FloatOps F) (q : Query F) (h : Handles F) (N : Nat) (L : Nat)
    (hsz : (N : Int) < 9223372036854775808) (n : Nat) (s : State F)
    (hs : Inv q (N : Int) L s) : Inv q (N : Int) L (run fo q h (N : Int) n s) := by
  induction n generalizing s with
  | zero => exact hs
  | succ n ih => exact ih _ (inv_step fo q h N L hsz s hs)

/-- Only the block `body_store` changes the buffer `result`. -/
theorem step_result_unchanged {F : Type} (fo : FloatOps F) (q : Query F) (h : Handles F)
    (size : Int) (s : State F) (hb : ∀ ib x, s.block ≠ .body_store ib x) :
    (step fo q h size s).result = s.result := by
  obtain ⟨b, i, ri, r⟩ := s
  cases b with
  | body_store ib x => exact absurd rfl (hb ib x)
  | condition =>
    simp only [step]
    split <;> rfl
  | body_condition =>
    simp only [step]
    split
    · split <;> rfl
    · rfl
  | body_main =>
    simp only [step]
    split
    · split <;> rfl
    · rfl
  | end_block =>
    simp only [step]
    split
    · split <;> rfl
    · rfl
  | increment => rfl
  | overflow_error => rfl
  | returned v => rfl
  | fault => rfl

/-- C7. For every query, every column length `N` that fits the signed 64-bit parameter
`size` and every result buffer of at least `N` elements, let `s` be the state that the
execution of `loop` has reached after `fuel` basic blocks and `s2` the state one basic
block later. The buffer has kept its length. If control is at `body_store` in `s`, the
block stores its value at `result[w]` with `0 ≤ w < N`, inside the buffer, and goes to
`increment`: `s2` is `s` with `result[w]` replaced by the value and nothing else of the
buffer changed (without where clause `w` is the row index; with a where clause `w` is
`result_index`, with `result_index ≤ index < N`, and `result_index` is increased by 1).
If control is in any other block, `s2` has the same buffer as `s`: no other block stores.
If `loop` has returned `v`, then `0 ≤ v ≤ N`. -/
theorem C7_stores_within_bounds {F : Type} (fo : FloatOps F) (q : Query F)
    (inputs : List (Option (List F))) (N : Nat) (hsz : (N : Int) < 9223372036854775808)
    (result : List F) (hlen : N ≤ result.length) (fuel : Nat) (s s2 : State F)
    (hs : s = loop_func fo q fuel result inputs (N : Int))
    (hs2 : s2 = loop_func fo q (fuel + 1) result inputs (N : Int)) :
    s.result.length = result.length ∧
      s2 = step fo q (entryHandles inputs q.columns 0 (fun _ => none)) (N : Int) s ∧
      (∀ ib x, s.block = .body_store ib x →
        (q.where_ = none → 0 ≤ ib ∧ ib < (N : Int) ∧ ib.toNat < s.result.length ∧
          storeAt s.result ib x = some (s.result.set ib.toNat x) ∧
          s2 = ⟨.increment, s.index, s.result_index, s.result.set ib.toNat x⟩) ∧
        (∀ w, q.where_ = some w → ∃ k, s.result_index = some k ∧ 0 ≤ k ∧ k ≤ s.index ∧
          s.index < (N : Int) ∧ k < (N : Int) ∧ k.toNat < s.result.length ∧
          storeAt s.result k x = some (s.result.set k.toNat x) ∧
          s2 = ⟨.increment, s.index, some (k + 1), s.result.set k.toNat x⟩)) ∧
      ((∀ ib x, s.block ≠ .body_store ib x) → s2.result = s.result) ∧
      (∀ v, s.block = .returned v → 0 ≤ v ∧ v ≤ (N : Int)) := by
  have hinv : Inv q (N : Int) result.length s := by
    rw [hs]
    exact inv_run fo q _ N result.length hsz fuel _ (inv_entry q N result)
  have hstep : s2 = step fo q (entryHandles inputs q.columns 0 (fun _ => none)) (N : Int) s := by
    rw [hs2, hs]
    unfold loop_func
    exact run_succ_last fo q _ _ fuel _
  clear hs hs2
  subst hstep
  obtain ⟨b, i, ri, r⟩ := s
  obtain ⟨hl, hi0, hiN, hri0, hsome, hb⟩ := hinv
  simp only at hl hi0 hiN hri0 hsome hb
  refine ⟨hl, rfl, ?_, fun hnb => step_result_unchanged fo q _ _ _ hnb, ?_⟩
  · intro ib x hbs
    simp only at hbs
    subst hbs
    obtain ⟨hib, hiN2, hri⟩ := hb
    subst hib
    constructor
    · intro hq
      have hlt : ib.toNat < r.length := by omega
      have hst : storeAt r ib x = some (r.set ib.toNat x) := by
        simp [storeAt, hlt]
        omega
      refine ⟨by omega, by omega, hlt, hst, ?_⟩
      simp [step, hq, hst]
    · intro w hw
      rw [hw] at hsome
      cases ri with
      | none => simp at hsome
      | some k =>
        simp only [Option.getD_some] at hri hri0
        have hlt : k.toNat < r.length := by omega
        have hst : storeAt r k x = some (r.set k.toNat x) := by
          simp [storeAt, hlt]
          omega
        have hwrap : wrap64 (k + 1) = k + 1 := wrap64_of_range (by omega) (by omega)
        refine ⟨k, rfl, hri0, hri, hiN2, by omega, hlt, hst, ?_⟩
        simp [step, hw, hst, hwrap]
  · intro v hv
    simp only at hv
    subst hv
    exact hb

set_option maxRecDepth 10000 in
/-- `SELECT a*b WHERE a>2` over the demo table: after 9 basic blocks control is at
`body_store` for the row `a = 3`, with `result_index = 0` and `index = 2`; one block later
90 stands at `result[0]`, `result_index` is 1 and the rest of the buffer is untouched. -/
theorem C7_stores_within_bounds_witness :
    (loop_func IntDouble.ops demoMulWhere 9 [.nan, .nan, .nan, .nan] demoInputs 4).block
        = .body_store 2 (.fin 90) ∧
      (∃ k : Int, 0 ≤ k ∧ k < 4 ∧
        loop_func IntDouble.ops demoMulWhere (9 + 1) [.nan, .nan, .nan, .nan] demoInputs 4
          = ⟨.increment,
              (loop_func IntDouble.ops demoMulWhere 9 [.nan, .nan, .nan, .nan] demoInputs
                4).index,
              some (k + 1),
              (loop_func IntDouble.ops demoMulWhere 9 [.nan, .nan, .nan, .nan] demoInputs
                4).result.set k.toNat (.fin 90)⟩) ∧
      loop_func IntDouble.ops demoMulWhere 10 [.nan, .nan, .nan, .nan] demoInputs 4
        = ⟨.increment, 2, some 1, [.fin 90, .nan, .nan, .nan]⟩ :=
  have h := C7_stores_within_bounds IntDouble.ops demoMulWhere demoInputs 4 (by decide)
    [.nan, .nan, .nan, .nan] (by decide) 9 _ _ rfl rfl
  have hb : (loop_func IntDouble.ops demoMulWhere 9 [.nan, .nan, .nan, .nan] demoInputs
      4).block = .body_store 2 (.fin 90) := by decide
  have h2 := (h.2.2.1 2 (.fin 90) hb).2 _ rfl
  ⟨hb, h2.elim (fun k hk => ⟨k, hk.2.1, hk.2.2.2.2.1, hk.2.2.2.2.2.2.2⟩), by decide⟩

/-! ## A where clause that every row passes -/

/-- One row of the loop with a where clause that the row passes (five blocks) against the
same row of the loop without where clause (four blocks), from states with the same
`index = result_index` and the same buffer: both are back at `condition` with the same
buffer, or both have stopped in the same way (a return of `OVERFLOW_CODE` or a fault) with
the same buffer. -/
theorem sim_row {F : Type} (fo : FloatOps F) (cols : List (Option Nat)) (sel w : Operation F)
    (h : Handles F) (N : Nat) (hsz : (N : Int) < 9223372036854775808) (j : Nat) (hj : j < N)
    (r : List F) (hW : PerformOperation fo h w (j : Int) = some (.i1 true)) :
    (∃ r2, run fo ⟨cols, sel, some w⟩ h (N : Int) 5 ⟨.condition, (j : Int), some (j : Int), r⟩
          = ⟨.condition, ((j + 1 : Nat) : Int), some ((j + 1 : Nat) : Int), r2⟩ ∧
        run fo ⟨cols, sel, none⟩ h (N : Int) 4 ⟨.condition, (j : Int), none, r⟩
          = ⟨.condition, ((j + 1 : Nat) : Int), none, r2⟩) ∨
      (∃ b, (b = .fault ∨ b = .returned OVERFLOW_CODE) ∧
        (run fo ⟨cols, sel, some w⟩ h (N : Int) 5
          ⟨.condition, (j : Int), some (j : Int), r⟩).block = b ∧
        (run fo ⟨cols, sel, none⟩ h (N : Int) 4 ⟨.condition, (j : Int), none, r⟩).block = b ∧
        (run fo ⟨cols, sel, some w⟩ h (N : Int) 5
          ⟨.condition, (j : Int), some (j : Int), r⟩).result
          = (run fo ⟨cols, sel, none⟩ h (N : Int) 4
              ⟨.condition, (j : Int), none, r⟩).result) := by
  have hjN : (j : Int) < (N : Int) := by exact_mod_cast hj
  cases hS : PerformOperation fo h sel (j : Int) with
  | none =>
    right
    exact ⟨.fault, Or.inl rfl, by simp [run, step, hjN, hW, hS], by simp [run, step, hjN, hS],
      by simp [run, step, hjN, hW, hS]⟩
  | some v =>
    cases v with
    | i1 b =>
      right
      exact ⟨.fault, Or.inl rfl, by simp [run, step, hjN, hW, hS],
        by simp [run, step, hjN, hS], by simp [run, step, hjN, hW, hS]⟩
    | double x =>
      cases hx : fo.oeq x fo.INFINITY with
      | true =>
        right
        exact ⟨.returned OVERFLOW_CODE, Or.inr rfl, by simp [run, step, hjN, hW, hS, hx],
          by simp [run, step, hjN, hS, hx], by simp [run, step, hjN, hW, hS, hx]⟩
      | false =>
        by_cases hlen : j < r.length
        · left
          exact ⟨r.set j x,
            row_where_true fo ⟨cols, sel, some w⟩ h N w rfl j j r x hjN hsz (le_refl j) hW hS hx
              hlen,
            row_nowhere fo ⟨cols, sel, none⟩ h N rfl j none r x hjN hsz hS hx hlen⟩
        · right
          have hst : storeAt r (j : Int) x = none := by simp [storeAt, hlen]
          exact ⟨.fault, Or.inl rfl, by simp [run, step, hjN, hW, hS, hx, hst],
            by simp [run, step, hjN, hS, hx, hst], by simp [run, step, hjN, hW, hS, hx, hst]⟩

/-- The rows below `j`: after `5 * j` blocks with the where clause and `4 * j` blocks
without, both loops are at `condition` with `index = j` and the same buffer, or both have
stopped in the same way with the same buffer. -/
theorem sim_rows {F : Type} (fo : FloatOps F) (cols : List (Option Nat)) (sel w : Operation F)
    (h : Handles F) (N : Nat) (hsz : (N : Int) < 9223372036854775808) (r0 : List F)
    (hW : ∀ i, i < N → PerformOperation fo h w (i : Int) = some (.i1 true)) (j : Nat)
    (hj : j ≤ N) :
    (∃ r, run fo ⟨cols, sel, some w⟩ h (N : Int) (5 * j) ⟨.condition, 0, some 0, r0⟩
          = ⟨.condition, (j : Int), some (j : Int), r⟩ ∧
        run fo ⟨cols, sel, none⟩ h (N : Int) (4 * j) ⟨.condition, 0, none, r0⟩
          = ⟨.condition, (j : Int), none, r⟩) ∨
      (∃ b, (b = .fault ∨ b = .returned OVERFLOW_CODE) ∧
        (run fo ⟨cols, sel, some w⟩ h (N : Int) (5 * j) ⟨.condition, 0, some 0, r0⟩).block = b ∧
        (run fo ⟨cols, sel, none⟩ h (N : Int) (4 * j) ⟨.condition, 0, none, r0⟩).block = b ∧
        (run fo ⟨cols, sel, some w⟩ h (N : Int) (5 * j) ⟨.condition, 0, some 0, r0⟩).result
          = (run fo ⟨cols, sel, none⟩ h (N : Int) (4 * j) ⟨.condition, 0, none, r0⟩).result) := by
  induction j with
  | zero => left; exact ⟨r0, by simp [run], by simp [run]⟩
  | succ j ih =>
    rw [show 5 * (j + 1) = 5 * j + 5 by ring, show 4 * (j + 1) = 4 * j + 4 by ring,
      run_add, run_add]
    rcases ih (by omega) with ⟨r, h1, h2⟩ | ⟨b, hb, h1, h2, h3⟩
    · rw [h1, h2]
      exact sim_row fo cols sel w h N hsz j (by omega) r (hW j (by omega))
    · right
      rcases hb with hb | hb
      · subst hb
        rw [run_fault fo _ h _ 5 _ h1, run_fault fo _ h _ 4 _ h2]
        exact ⟨.fault, Or.inl rfl, h1, h2, h3⟩
      · subst hb
        rw [run_returned fo _ h _ 5 _ _ h1, run_returned fo _ h _ 4 _ _ h2]
        exact ⟨_, Or.inr rfl, h1, h2, h3⟩

/-- C5. For every column list, select expression and column length `N` (which fits the
signed 64-bit parameter `size`), and every where expression whose value is true on every
row `i < N`: the loop compiled with that where clause (given at least `5 * N + 2` basic
blocks) and the loop compiled without where clause (given at least `4 * N + 2`) stop in
the same way, either both return the same value or both fault, and leave the same
contents in the result buffer; this includes the runs that return `OVERFLOW_CODE`. -/
theorem C5_all_true_where_equals_no_where {F : Type} (fo : FloatOps F)
    (cols : List (Option Nat)) (sel w : Operation F) (inputs : List (Option (List F)))
    (N : Nat) (hsz : (N : Int) < 9223372036854775808) (result : List F)
    (hW : ∀ i, i < N →
      PerformOperation fo (entryHandles inputs cols 0 (fun _ => none)) w (i : Int)
        = some (.i1 true))
    (fuel1 fuel2 : Nat) (h1 : 5 * N + 2 ≤ fuel1) (h2 : 4 * N + 2 ≤ fuel2) :
    (loop_func fo ⟨cols, sel, some w⟩ fuel1 result inputs (N : Int)).block
        = (loop_func fo ⟨cols, sel, none⟩ fuel2 result inputs (N : Int)).block ∧
      (loop_func fo ⟨cols, sel, some w⟩ fuel1 result inputs (N : Int)).result
        = (loop_func fo ⟨cols, sel, none⟩ fuel2 result inputs (N : Int)).result ∧
      ((loop_func fo ⟨cols, sel, none⟩ fuel2 result inputs (N : Int)).block = .fault ∨
        ∃ v, (loop_func fo ⟨cols, sel, none⟩ fuel2 result inputs (N : Int)).block
          = .returned v) := by
  have he1 : entry (⟨cols, sel, some w⟩ : Query F) result = ⟨.condition, 0, some 0, result⟩ := by
    simp [entry]
  have he2 : entry (⟨cols, sel, none⟩ : Query F) result = ⟨.condition, 0, none, result⟩ := by
    simp [entry]
  obtain ⟨a, rfl⟩ := Nat.exists_eq_add_of_le h1
  obtain ⟨b, rfl⟩ := Nat.exists_eq_add_of_le h2
  unfold loop_func
  simp only [he1, he2, run_add]
  rcases sim_rows fo cols sel w (entryHandles inputs cols 0 (fun _ => none)) N hsz result hW N
    (le_refl N) with ⟨r, h1, h2⟩ | ⟨bl, hb, h1, h2, h3⟩
  · rw [h1, h2,
      exit_where fo ⟨cols, sel, some w⟩ _ N w rfl _ _ _ (le_refl _),
      exit_nowhere fo ⟨cols, sel, none⟩ _ N rfl _ _ _ (le_refl _),
      run_returned fo _ _ _ a _ (N : Int) rfl, run_returned fo _ _ _ b _ (N : Int) rfl]
    exact ⟨rfl, rfl, Or.inr ⟨_, rfl⟩⟩
  · rcases hb with hb | hb
    · subst hb
      rw [run_fault fo _ _ _ 2 _ h1, run_fault fo _ _ _ 2 _ h2,
        run_fault fo _ _ _ a _ h1, run_fault fo _ _ _ b _ h2]
      exact ⟨h1.trans h2.symm, h3, Or.inl h2⟩
    · subst hb
      rw [run_returned fo _ _ _ 2 _ _ h1, run_returned fo _ _ _ 2 _ _ h2,
        run_returned fo _ _ _ a _ _ h1, run_returned fo _ _ _ b _ _ h2]
      exact ⟨h1.trans h2.symm, h3, Or.inr ⟨_, h2⟩⟩

set_option maxRecDepth 10000 in
/-- `SELECT a+b WHERE a>0` against `SELECT a+b` over the demo table: both return 4 and
leave 11, 22, 33, 44 in the buffer. -/
theorem C5_all_true_where_equals_no_where_witness :
    (loop_func IntDouble.ops ⟨demoAdd.columns, demoAdd.select, some demoAllPass⟩ 22
        [.nan, .nan, .nan, .nan] demoInputs 4).block
        = (loop_func IntDouble.ops ⟨demoAdd.columns, demoAdd.select, none⟩ 18
            [.nan, .nan, .nan, .nan] demoInputs 4).block ∧
      (loop_func IntDouble.ops ⟨demoAdd.columns, demoAdd.select, some demoAllPass⟩ 22
        [.nan, .nan, .nan, .nan] demoInputs 4).result = [.fin 11, .fin 22, .fin 33, .fin 44] :=
  have h := C5_all_true_where_equals_no_where IntDouble.ops demoAdd.columns demoAdd.select
    demoAllPass demoInputs 4 (by decide) [.nan, .nan, .nan, .nan] (by decide) 22 18
    (by decide) (by decide)
  ⟨h.1, h.2.1.trans (by decide)⟩

/-! ## The command line and the loop of `main` -/

/-- C8. `ExecuteQuery` does not read `enable_optimizations`: its result is the same for
both values of the variable. In particular without `-opt` (the variable keeps its initial
value `false`) the query `SELECT a+b` over the demo table still has the function pass
manager run all the passes of `InitializePassManager` on `loop` before it is compiled. -/
theorem C8_passes_run_without_opt :
    (∀ (F : Type) (fo : FloatOps F) (heap : Heap F) (junk : Nat → F) (fuel : Nat)
        (g : Globals) (q : Query F),
        ExecuteQuery fo heap junk fuel { g with enable_optimizations := false } q
          = ExecuteQuery fo heap junk fuel { g with enable_optimizations := true } q) ∧
      processArgs [] {} = .ok {} ∧
      ({} : Globals).enable_optimizations = false ∧
      (ExecuteQuery IntDouble.ops demoHeap (fun _ => .nan) 18 {} demoAdd).1
        = [.LLVMRunFunctionPassManager InitializePassManager, .LLVMDumpModule,
            .LLVMCreateMCJITCompilerForModule] := by
  refine ⟨fun F fo heap junk fuel g q => rfl, rfl, rfl, ?_⟩
  decide

theorem mainLoop_statement_d {F : Type} (w : World F) (fuel : Nat) (g : Globals)
    (hs : g.execute_statement = true) (hd : g.statement = some "\\d") (n : Nat)
    (stdin : List Byte) :
    mainLoop w fuel g n stdin = (List.replicate n .PrintTables, .in_loop) := by
  induction n with
  | zero => rfl
  | succ n ih =>
    have h1 : ¬ ("\\d" = "\\q" ∨ ("\\d".length > 0 ∧ "\\d".front = '^')) := by decide
    simp only [mainLoop, hs, hd, Option.map_some', Bool.not_true, Bool.false_eq_true,
      if_false, h1, if_true, ih]
    rfl

/-- C9. With the arguments `-s` and `\d` the loop of `main` never ends: for every number `n`
of iterations, `main` has called `PrintTables` `n` times for the one statement and is
still in the loop (the `continue` after `PrintTables` skips the test of
`execute_statement` at the end of the body). -/
theorem C9_statement_d_never_terminates {F : Type} (w : World F) (fuel n : Nat)
    (stdin : List Byte) :
    main w fuel ["rembrandb", "-s", "\\d"] n stdin
      = .ok (List.replicate n .PrintTables, .in_loop) := by
  have hp : processArgs (["rembrandb", "-s", "\\d"].drop 1) {}
      = .ok { execute_statement := true, statement := some "\\d" } := rfl
  simp only [main, hp]
  rw [mainLoop_statement_d w fuel _ rfl rfl]

/-- In the mode `-s` every statement other than `\d` is handled in the first iteration
of the loop: more iterations change nothing. -/
theorem mainLoop_statement_once {F : Type} (w : World F) (fuel : Nat) (g : Globals)
    (hs : g.execute_statement = true) (stmt : String) (hst : g.statement = some stmt)
    (hd : stmt ≠ "\\d") (n : Nat) (stdin : List Byte) :
    mainLoop w fuel g (n + 1) stdin = mainLoop w fuel g 1 stdin := by
  simp only [mainLoop, hs, hst, Option.map_some', Bool.not_true, Bool.false_eq_true, if_false,
    hd, if_true]

/-- Once `-s` has been seen, argument processing without `--help` ends without exit. -/
theorem processArgs_after_s (args : List String) (g : Globals)
    (hs : g.execute_statement = true) (hh : "--help" ∉ args) :
    ∃ g2, processArgs args g = .ok g2 := by
  induction args generalizing g with
  | nil => exact ⟨g, rfl⟩
  | cons a rest ih =>
    have ha : a ≠ "--help" := fun h => hh (by simp [h])
    have hr : "--help" ∉ rest := fun h => hh (by simp [h])
    simp only [processArgs, ha, if_false, hs, if_true]
    split_ifs <;> exact ih _ (by simp [hs]) hr

theorem processArgs_stray (pre : List String) (a : String) (post : List String) (g : Globals)
    (hs : g.execute_statement = false) (hh : "--help" ∉ pre ++ a :: post)
    (ha : a ∉ recognisedFlags) (hpre : "-s" ∉ pre) :
    processArgs (pre ++ a :: post) g = .error 1 := by
  induction pre generalizing g with
  | nil =>
    have h0 : a ≠ "--help" := fun h => hh (by simp [h])
    simp only [recognisedFlags, List.mem_cons, List.mem_singleton, List.not_mem_nil, or_false,
      not_or] at ha
    simp [processArgs, h0, ha.1, ha.2.1, ha.2.2.1, ha.2.2.2, hs]
  | cons p pre ih =>
    have h0 : p ≠ "--help" := fun h => hh (by simp [h])
    have h1 : p ≠ "-s" := fun h => hpre (by simp [h])
    have hr : "--help" ∉ pre ++ a :: post := fun h => hh (by simp at h ⊢; exact Or.inr h)
    have hp2 : "-s" ∉ pre := fun h => hpre (by simp [h])
    simp only [List.cons_append, processArgs, h0, if_false, h1, hs]
    split_ifs
    all_goals first
      | rfl
      | contradiction
      | exact ih _ (by simp [hs]) hr hp2

/-- C10, as stated, fails: the arguments `-s "SELECT a;" -bogus` contain no `--help`, and
`-bogus` is neither a recognised flag nor the operand that immediately follows `-s`; yet
argument processing does not end the program: `-bogus` becomes the statement. -/
theorem C10_counterexample :
    ¬ (∀ args : List String, "--help" ∉ args →
        (∃ pre a post, args = pre ++ a :: post ∧ a ∉ recognisedFlags ∧
          pre.getLast? ≠ some "-s") →
        processArgs args {} = .error 1) := by
  intro hall
  have h := hall ["-s", "SELECT a;", "-bogus"] (by decide)
    ⟨["-s", "SELECT a;"], "-bogus", [], rfl, by decide, by decide⟩
  have h2 : processArgs ["-s", "SELECT a;", "-bogus"] {}
      = .ok { execute_statement := true, statement := some "-bogus" } := rfl
  rw [h2] at h
  cases h

/-- C10, amended. For every argument vector `argv[1..]` containing no `--help`, if some
argument is not one of the recognised flags (`-opt`, `-no-print`, `-no-llvm`, `-s`) and no
`-s` stands before it, argument processing ends the program with exit code 1, and `main`
executes nothing of its loop. -/
theorem C10_stray_argument_before_s_exits_1 {F : Type} (w : World F) (fuel n : Nat)
    (stdin : List Byte) (prog : String) (pre : List String) (a : String) (post : List String)
    (hh : "--help" ∉ pre ++ a :: post) (ha : a ∉ recognisedFlags) (hpre : "-s" ∉ pre) :
    processArgs (pre ++ a :: post) {} = .error 1 ∧
      main w fuel (prog :: (pre ++ a :: post)) n stdin = .error 1 := by
  have h := processArgs_stray pre a post {} rfl hh ha hpre
  refine ⟨h, ?_⟩
  simp only [main, List.drop_succ_cons, List.drop_zero, h]

/-- The arguments `-opt -bogus -s "SELECT a;"` end the program with exit code 1. -/
theorem C10_stray_argument_before_s_exits_1_witness :
    processArgs ["-opt", "-bogus", "-s", "SELECT a;"] {} = .error 1 :=
  (C10_stray_argument_before_s_exits_1
    (⟨IntDouble.ops, fun _ => none, demoHeap, fun _ => .nan, fun _ => 0⟩ : World IntDouble)
    0 0 [] "rembrandb" ["-opt"] "-bogus" ["-s", "SELECT a;"] (by decide) (by decide)
    (by decide)).1

/-! ## The pass list and the dump of the module -/

/-- C11, as stated, fails: the list of passes that `InitializePassManager` registers is
not the list of 27 entries of section 4.4 of the spec; it has 28 entries. -/
theorem C11_counterexample :
    ¬ (InitializePassManager = specPipeline) ∧ InitializePassManager.length = 28 ∧
      specPipeline.length = 27 := by
  decide

/-- C11, amended. The passes that `InitializePassManager` registers are the 27 entries of
section 4.4 of the spec, in the same order, with one more pass, the scalar replacement of
aggregates without SSA form, registered as fifth pass, just before the scalar replacement
of aggregates in SSA form: 28 entries. -/
theorem C11_pipeline_is_spec_with_one_more_pass :
    InitializePassManager
        = specPipeline.take 4 ++ Pass.ScalarReplAggregates :: specPipeline.drop 4 ∧
      specPipeline.get? 4 = some Pass.ScalarReplAggregatesSSA ∧
      InitializePassManager.length = 28 := by
  decide

/-- C13. `ExecuteQuery` does not read `print_llvm`: its result is the same for both
values of the variable. In particular with `-no-llvm` (the variable is `false`) the query
`SELECT a+b` over the demo table still has the module dumped (`LLVMDumpModule`) before it
is compiled. -/
theorem C13_module_dumped_with_no_llvm :
    (∀ (F : Type) (fo : FloatOps F) (heap : Heap F) (junk : Nat → F) (fuel : Nat)
        (g : Globals) (q : Query F),
        ExecuteQuery fo heap junk fuel { g with print_llvm := false } q
          = ExecuteQuery fo heap junk fuel { g with print_llvm := true } q) ∧
      processArgs ["-no-llvm"] {} = .ok { print_llvm := false } ∧
      (ExecuteQuery IntDouble.ops demoHeap (fun _ => .nan) 18 { print_llvm := false }
          demoAdd).1
        = [.LLVMRunFunctionPassManager InitializePassManager, .LLVMDumpModule,
            .LLVMCreateMCJITCompilerForModule] := by
  refine ⟨fun F fo heap junk fuel g q => rfl, rfl, ?_⟩
  decide

/-! ## Columns, `inputs` and the codegen handles -/

theorem entryHandles_not_mem {F : Type} (inputs : List (Option (List F)))
    (cols : List (Option Nat)) (p : Nat) (h : Handles F) (c : Nat) (hc : some c ∉ cols) :
    entryHandles inputs cols p h c = h c := by
  induction cols generalizing p h with
  | nil => rfl
  | cons x rest ih =>
    have hr : some c ∉ rest := fun hm => hc (List.mem_cons_of_mem _ hm)
    cases x with
    | none => simpa [entryHandles] using ih (p + 1) h hr
    | some d =>
      have hd : c ≠ d := fun e => hc (by simp [e])
      simp only [entryHandles]
      rw [ih _ _ hr, Function.update_noteq hd]

/-- The block `entry` leaves in the handle of a column what `inputs` holds at the last
position of the column list where the column stands. -/
theorem entryHandles_last {F : Type} (inputs : List (Option (List F)))
    (cols : List (Option Nat)) (p : Nat) (h : Handles F) (c i : Nat)
    (hi : cols.get? i = some (some c))
    (hlast : ∀ j, i < j → cols.get? j ≠ some (some c)) :
    entryHandles inputs cols p h c = (inputs.get? (p + i)).join := by
  induction cols generalizing p h i with
  | nil => simp at hi
  | cons x rest ih =>
    cases i with
    | zero =>
      have hx : x = some c := by simpa using hi
      subst hx
      have hr : some c ∉ rest := by
        intro hm
        obtain ⟨j, hj⟩ := List.get?_of_mem hm
        exact hlast (j + 1) (by omega) (by simpa using hj)
      simp only [entryHandles]
      rw [entryHandles_not_mem inputs rest _ _ c hr]
      simp
    | succ i =>
      have hi2 : rest.get? i = some (some c) := by simpa using hi
      have hl2 : ∀ j, i < j → rest.get? j ≠ some (some c) := fun j hj =>
        by simpa using hlast (j + 1) (by omega)
      cases x with
      | none =>
        simp only [entryHandles]
        rw [ih (p + 1) h i hi2 hl2, show p + 1 + i = p + (i + 1) by omega]
      | some d =>
        simp only [entryHandles]
        rw [ih (p + 1) _ i hi2 hl2, show p + 1 + i = p + (i + 1) by omega]

/-- The shim stores at `inputs[i]` the data of the column of node `i`. -/
theorem fillInputs_get {F : Type} (heap : Heap F) (cols : List (Option Nat)) (i c : Nat)
    (hi : cols.get? i = some (some c)) :
    (fillInputs heap cols).get? i = some ((heap c).map (fun col => col.data)) := by
  induction cols generalizing i with
  | nil => simp at hi
  | cons x rest ih =>
    cases i with
    | zero =>
      have hx : x = some c := by simpa using hi
      subst hx
      simp [fillInputs]
    | succ i =>
      have hi2 : rest.get? i = some (some c) := by simpa using hi
      cases x <;> simpa [fillInputs] using ih i hi2

theorem get?_append_cons_length {α : Type} (pre : List α) (x : α) (t : List α) :
    (pre ++ x :: t).get? pre.length = some x := by
  induction pre with
  | nil => rfl
  | cons a pre ih => simpa using ih

/-- With the array `inputs` that the shim fills, the handle of every column of the column
list holds the data of that column. -/
theorem entryHandles_fillInputs {F : Type} (heap : Heap F) (cols : List (Option Nat))
    (pre : List (Option (List F))) (h : Handles F) (c : Nat) (hc : some c ∈ cols) :
    entryHandles (pre ++ fillInputs heap cols) cols pre.length h c
      = (heap c).map (fun col => col.data) := by
  induction cols generalizing pre h with
  | nil => simp at hc
  | cons x rest ih =>
    cases x with
    | none =>
      have hr : some c ∈ rest := by simpa using hc
      have := ih (pre ++ [none]) h hr
      simpa [entryHandles, fillInputs] using this
    | some d =>
      have hget : ((pre ++ (heap d).map (fun col => col.data) :: fillInputs heap rest).get?
          pre.length).join = (heap d).map (fun col => col.data) := by
        rw [get?_append_cons_length]
        rfl
      simp only [entryHandles, fillInputs]
      rw [hget]
      by_cases hr : some c ∈ rest
      · have := ih (pre ++ [(heap d).map (fun col => col.data)])
          (Function.update h d ((heap d).map (fun col => col.data))) hr
        simpa using this
      · have hcd : c = d := by
          rcases List.mem_cons.mp hc with e | e
          · exact Option.some.inj e
          · exact absurd e hr
        subst hcd
        rw [entryHandles_not_mem _ rest _ _ c hr]
        simp

/-- C17. For every column list, every position `i` of it that holds a column `c` (stored
in memory as `col`), every start of the handles and every row index: the shim stores the
data of `c` at `inputs[i]` (positions are counted over all nodes, those without column
included); the block `entry` loads the handle of `c` from `inputs`, at position `i` when
`i` is the last position holding `c`; so with the `inputs` of the shim the handle of `c`
holds the data of `c`, and the code emitted for `ColumnRef(c)` at row `index` reads
element `index` of the data of `c`. -/
theorem C17_column_ref_reads_own_data {F : Type} (fo : FloatOps F) (heap : Heap F)
    (cols : List (Option Nat)) (i c : Nat) (col : Column F)
    (hi : cols.get? i = some (some c)) (hc : heap c = some col) (index : Int) :
    (fillInputs heap cols).get? i = some (some col.data) ∧
      ((∀ j, i < j → cols.get? j ≠ some (some c)) →
        ∀ (inputs : List (Option (List F))) (h0 : Handles F),
          entryHandles inputs cols 0 h0 c = (inputs.get? i).join) ∧
      entryHandles (fillInputs heap cols) cols 0 (fun _ => none) c = some col.data ∧
      PerformOperation fo (entryHandles (fillInputs heap cols) cols 0 (fun _ => none))
          (.OPTYPE_colmn c) index
        = (loadAt col.data index).map .double := by
  have hmem : some c ∈ cols := List.get?_mem hi
  have hh : entryHandles (fillInputs heap cols) cols 0 (fun _ => none) c = some col.data := by
    have := entryHandles_fillInputs heap cols [] (fun _ => none) c hmem
    simpa [hc] using this
  refine ⟨by rw [fillInputs_get heap cols i c hi, hc]; rfl, ?_, hh, ?_⟩
  · intro hlast inputs h0
    simpa using entryHandles_last inputs cols 0 h0 c i hi hlast
  · simp only [PerformOperation, hh]
    cases loadAt col.data index <;> rfl

set_option maxRecDepth 10000 in
/-- Column `b` of the demo table stands at position 1 of the column list `a, b`: the code
emitted for `ColumnRef(b)` at row 2 reads 30. -/
theorem C17_column_ref_reads_own_data_witness :
    PerformOperation IntDouble.ops
        (entryHandles (fillInputs demoHeap [some 0, some 1]) [some 0, some 1] 0 (fun _ => none))
        (.OPTYPE_colmn 1) 2
      = some (.double (.fin 30)) :=
  (C17_column_ref_reads_own_data IntDouble.ops demoHeap [some 0, some 1] 1 1
    { data := [.fin 10, .fin 20, .fin 30, .fin 40], size := 4 } rfl rfl 2).2.2.2.trans
    (by decide)

/-! ## The expression lowerer against the reference evaluation -/

/-- When the handle of every column that `op` refers to holds the data of that column, the
code emitted for a well-typed `op` computes the reference evaluation. -/
theorem lower_eq_eval {F : Type} (fo : FloatOps F) (heap : Heap F) (h : Handles F)
    (index : Int) (op : Operation F)
    (hh : ∀ c, c ∈ op.columnRefs → h c = (heap c).map (fun col => col.data)) :
    (op.typeOf = some .double →
        PerformOperation fo h op index = (evalDouble fo heap op index).map .double) ∧
      (op.typeOf = some .i1 →
        PerformOperation fo h op index = (evalBool fo heap op index).map .i1) := by
  induction op with
  | OPTYPE_const v => simp [Operation.typeOf, PerformOperation, evalDouble]
  | OPTYPE_other => simp [Operation.typeOf]
  | OPTYPE_colmn c =>
    have hc := hh c (by simp [Operation.columnRefs])
    refine ⟨fun _ => ?_, fun hty => by simp [Operation.typeOf] at hty⟩
    simp only [PerformOperation, evalDouble, hc]
    cases heap c with
    | none => rfl
    | some col => cases hl : loadAt col.data index <;> simp [hl]
  | OPTYPE_binop k l r ihl ihr =>
    have ihl := ihl (fun c hc => hh c (by simp [Operation.columnRefs, hc]))
    have ihr := ihr (fun c hc => hh c (by simp [Operation.columnRefs, hc]))
    rcases hl : l.typeOf with _ | (_ | _) <;> rcases hr : r.typeOf with _ | (_ | _) <;>
      cases k <;> refine ⟨fun hty => ?_, fun hty => ?_⟩ <;>
      (try simp [Operation.typeOf, hl, hr, binopType] at hty) <;>
      first
        | (simp only [PerformOperation, ihl.1 hl, ihr.1 hr, evalDouble, evalBool]
           cases evalDouble fo heap l index <;> cases evalDouble fo heap r index <;> rfl)
        | (simp only [PerformOperation, ihl.2 hl, ihr.2 hr, evalDouble, evalBool]
           cases evalBool fo heap l index <;> cases evalBool fo heap r index <;> rfl)

/-- The arithmetic `IntDouble` has the comparisons of IEEE 754. -/
theorem intDouble_ieee :
    IEEEComparisons IntDouble.ops (fun x => decide (x = IntDouble.nan)) (IntDouble.inf true) where
  olt_nan := by
    intro x y hxy
    cases x <;> cases y <;> simp_all [IntDouble.ops, IntDouble.lt]
  ole_nan := by
    intro x y hxy
    cases x <;> cases y <;> simp_all [IntDouble.ops, IntDouble.lt, IntDouble.eq]
  oeq_nan := by
    intro x y hxy
    cases x <;> cases y <;> simp_all [IntDouble.ops, IntDouble.eq]
  one_nan := by
    intro x y hxy
    cases x <;> cases y <;> simp_all [IntDouble.ops, IntDouble.lt]
  ogt_nan := by
    intro x y hxy
    cases x <;> cases y <;> simp_all [IntDouble.ops, IntDouble.lt]
  oge_nan := by
    intro x y hxy
    cases x <;> cases y <;> simp_all [IntDouble.ops, IntDouble.lt, IntDouble.eq]
  oeq_negInfinity := by decide

/-- C14. For every operation tree `op` that is well-typed (of type `ty`) and refers only
to columns of the column list, and every row index, the value computed by the code that
`PerformOperation` emits, run with the handles set up by `ExecuteQuery`, is the reference
evaluation of `op`: `evalDouble` for a tree of doubles, `evalBool` for a boolean tree
(a load outside a column has no value on either side). A comparison (`lt`, `le`, `eq`,
`ne`, `gt`, `ge`) with a NaN child value gives false, for `ne` too, because the emitted
comparisons are the ordered ones. Both children of a binary operation are always
evaluated: if either has no value, the operation has none, also for `and` and `or`. -/
theorem C14_lowering_computes_eval {F : Type} (fo : FloatOps F) (isNaN : F → Bool)
    (negInfinity : F) (laws : IEEEComparisons fo isNaN negInfinity) (heap : Heap F)
    (cols : List (Option Nat)) (op : Operation F) (index : Int) (ty : Ty)
    (hty : op.typeOf = some ty) (hrefs : ∀ c, c ∈ op.columnRefs → some c ∈ cols) :
    PerformOperation fo (entryHandles (fillInputs heap cols) cols 0 (fun _ => none)) op index
        = (match ty with
          | .double => (evalDouble fo heap op index).map .double
          | .i1 => (evalBool fo heap op index).map .i1) ∧
      (∀ k l r x y, op = .OPTYPE_binop k l r → binopType k .double .double = some .i1 →
        PerformOperation fo (entryHandles (fillInputs heap cols) cols 0 (fun _ => none)) l index
          = some (.double x) →
        PerformOperation fo (entryHandles (fillInputs heap cols) cols 0 (fun _ => none)) r index
          = some (.double y) →
        isNaN x = true ∨ isNaN y = true →
        PerformOperation fo (entryHandles (fillInputs heap cols) cols 0 (fun _ => none)) op
          index = some (.i1 false)) ∧
      (∀ k l r, op = .OPTYPE_binop k l r →
        PerformOperation fo (entryHandles (fillInputs heap cols) cols 0 (fun _ => none)) l index
            = none ∨
          PerformOperation fo (entryHandles (fillInputs heap cols) cols 0 (fun _ => none)) r
            index = none →
        PerformOperation fo (entryHandles (fillInputs heap cols) cols 0 (fun _ => none)) op
          index = none) := by
  have hmain := lower_eq_eval fo heap
    (entryHandles (fillInputs heap cols) cols 0 (fun _ => none)) index op
    (fun c hc => by
      simpa using entryHandles_fillInputs heap cols [] (fun _ => none) c (hrefs c hc))
  refine ⟨?_, ?_, ?_⟩
  · cases ty with
    | double => exact hmain.1 hty
    | i1 => exact hmain.2 hty
  · intro k l r x y hop hk hl hr hnan
    subst hop
    cases k <;> simp [binopType] at hk <;>
      simp [PerformOperation, hl, hr, binop, laws.olt_nan x y hnan, laws.ole_nan x y hnan,
        laws.oeq_nan x y hnan, laws.one_nan x y hnan, laws.ogt_nan x y hnan,
        laws.oge_nan x y hnan]
  · intro k l r hop hnone
    subst hop
    rcases hnone with hl | hr
    · simp [PerformOperation, hl]
    · simp only [PerformOperation, hr]
      cases PerformOperation fo (entryHandles (fillInputs heap cols) cols 0 (fun _ => none)) l
        index <;> rfl

set_option maxRecDepth 10000 in
/-- The where clause `a>2` of the demo query at row 2 (`a = 3`): the emitted code
computes the reference value, true. -/
theorem C14_lowering_computes_eval_witness :
    PerformOperation IntDouble.ops
        (entryHandles (fillInputs demoHeap [some 0, some 1]) [some 0, some 1] 0 (fun _ => none))
        (.OPTYPE_binop .OPTYPE_gt (.OPTYPE_colmn 0) (.OPTYPE_const (.fin 2))) 2
      = some (.i1 true) :=
  (C14_lowering_computes_eval IntDouble.ops (fun x => decide (x = IntDouble.nan))
    (IntDouble.inf true) intDouble_ieee demoHeap [some 0, some 1]
    (.OPTYPE_binop .OPTYPE_gt (.OPTYPE_colmn 0) (.OPTYPE_const (.fin 2))) 2 .i1 rfl
    (by decide)).1.trans (by decide)

/-! ## Which select values signal overflow -/

/-- C15. Let `x` be the select value of row `i < N`. The block `body_main` branches to
`overflow_error` exactly when `x` is ordered-equal to `INFINITY`, and to `body_store` with
`x` otherwise. When `x` is minus infinity or a NaN the comparison is false: `body_main`
goes on to `body_store`, and the row is stored and counted like any other: without where
clause `x` is stored at `result[i]`, with a where clause that the row passes `x` is stored
at `result[result_index]` and `result_index` is increased; in both cases control is back at
`condition` with the next row. -/
theorem C15_only_plus_infinity_signals_overflow {F : Type} (fo : FloatOps F)
    (isNaN : F → Bool) (negInfinity : F) (laws : IEEEComparisons fo isNaN negInfinity)
    (q : Query F) (h : Handles F) (N i : Nat) (hi : i < N)
    (hsz : (N : Int) < 9223372036854775808) (x : F)
    (hS : PerformOperation fo h q.select (i : Int) = some (.double x)) :
    (∀ ri r, (step fo q h (N : Int) ⟨.body_main, (i : Int), ri, r⟩).block = .overflow_error ↔
        fo.oeq x fo.INFINITY = true) ∧
      (∀ ri r, fo.oeq x fo.INFINITY = false →
        step fo q h (N : Int) ⟨.body_main, (i : Int), ri, r⟩
          = ⟨.body_store (i : Int) x, (i : Int), ri, r⟩) ∧
      (isNaN x = true ∨ x = negInfinity →
        fo.oeq x fo.INFINITY = false ∧
        (q.where_ = none → ∀ ri r, i < r.length →
          run fo q h (N : Int) 4 ⟨.condition, (i : Int), ri, r⟩
            = ⟨.condition, ((i + 1 : Nat) : Int), ri, r.set i x⟩) ∧
        (∀ w k r, q.where_ = some w →
          PerformOperation fo h w (i : Int) = some (.i1 true) → k ≤ i → k < r.length →
          run fo q h (N : Int) 5 ⟨.condition, (i : Int), some (k : Int), r⟩
            = ⟨.condition, ((i + 1 : Nat) : Int), some ((k + 1 : Nat) : Int), r.set k x⟩)) := by
  have hiN : (i : Int) < (N : Int) := by exact_mod_cast hi
  refine ⟨fun ri r => ?_, fun ri r hx => ?_, fun hx => ?_⟩
  · cases hc : fo.oeq x fo.INFINITY <;> simp [step, hS, hc]
  · simp [step, hS, hx]
  · have hf : fo.oeq x fo.INFINITY = false := by
      rcases hx with hx | hx
      · exact laws.oeq_nan x fo.INFINITY (Or.inl hx)
      · rw [hx]; exact laws.oeq_negInfinity
    exact ⟨hf, fun hq ri r hlen => row_nowhere fo q h N hq i ri r x hiN hsz hS hf hlen,
      fun w k r hq hW hk hlen => row_where_true fo q h N w hq i k r x hiN hsz hk hW hS hf hlen⟩

set_option maxRecDepth 10000 in
/-- `SELECT -inf` over the demo table, row 0: the value is stored at `result[0]` and
control is back at `condition` with row 1. -/
theorem C15_only_plus_infinity_signals_overflow_witness :
    run IntDouble.ops ⟨[some 0, some 1], .OPTYPE_const (.inf true), none⟩ (fun _ => none) 4 4
        ⟨.condition, 0, none, [.fin 0, .fin 0, .fin 0, .fin 0]⟩
      = ⟨.condition, 1, none, [.inf true, .fin 0, .fin 0, .fin 0]⟩ :=
  ((C15_only_plus_infinity_signals_overflow IntDouble.ops (fun x => decide (x = IntDouble.nan))
    (IntDouble.inf true) intDouble_ieee ⟨[some 0, some 1], .OPTYPE_const (.inf true), none⟩
    (fun _ => none) 4 0 (by decide) (by decide) (.inf true) rfl).2.2 (Or.inr rfl)).2.1 rfl none
    [.fin 0, .fin 0, .fin 0, .fin 0] (by decide)

/-! ## A where clause that no row passes -/

theorem all_false_prefix {F : Type} (fo : FloatOps F) (q : Query F) (h : Handles F)
    (w : Operation F) (hq : q.where_ = some w) (N : Nat)
    (hsz : (N : Int) < 9223372036854775808) (r0 : List F)
    (hW : ∀ i, i < N → PerformOperation fo h w (i : Int) = some (.i1 false)) (j : Nat)
    (hj : j ≤ N) :
    run fo q h (N : Int) (3 * j) ⟨.condition, 0, some 0, r0⟩
      = ⟨.condition, (j : Int), some 0, r0⟩ := by
  induction j with
  | zero => simp [run]
  | succ j ih =>
    rw [show 3 * (j + 1) = 3 * j + 3 by ring, run_add, ih (by omega),
      row_where_false fo q h N w hq j _ _ (by exact_mod_cast (show j < N by omega)) hsz
        (hW j (by omega))]

/-- While no row passes the where clause, the loop is in one of the blocks `condition`,
`body_condition`, `increment`, `end` or has returned 0; the buffer and `result_index` are
what they were at the start. -/
theorem all_false_inv {F : Type} (fo : FloatOps F) (q : Query F) (h : Handles F)
    (w : Operation F) (hq : q.where_ = some w) (N : Nat)
    (hsz : (N : Int) < 9223372036854775808) (r0 : List F)
    (hW : ∀ i, i < N → PerformOperation fo h w (i : Int) = some (.i1 false)) (n : Nat) :
    (run fo q h (N : Int) n ⟨.condition, 0, some 0, r0⟩).result = r0 ∧
      (run fo q h (N : Int) n ⟨.condition, 0, some 0, r0⟩).result_index = some 0 ∧
      0 ≤ (run fo q h (N : Int) n ⟨.condition, 0, some 0, r0⟩).index ∧
      ((run fo q h (N : Int) n ⟨.condition, 0, some 0, r0⟩).block = .condition ∨
        ((run fo q h (N : Int) n ⟨.condition, 0, some 0, r0⟩).block = .body_condition ∧
          (run fo q h (N : Int) n ⟨.condition, 0, some 0, r0⟩).index < (N : Int)) ∨
        ((run fo q h (N : Int) n ⟨.condition, 0, some 0, r0⟩).block = .increment ∧
          (run fo q h (N : Int) n ⟨.condition, 0, some 0, r0⟩).index < (N : Int)) ∨
        (run fo q h (N : Int) n ⟨.condition, 0, some 0, r0⟩).block = .end_block ∨
        (run fo q h (N : Int) n ⟨.condition, 0, some 0, r0⟩).block = .returned 0) := by
  induction n with
  | zero => simp [run]
  | succ n ih =>
    rw [run_succ_last]
    generalize run fo q h (N : Int) n ⟨.condition, 0, some 0, r0⟩ = s at ih
    obtain ⟨b, i, ri, r⟩ := s
    obtain ⟨hr, hri, hi0, hb⟩ := ih
    simp only at hr hri hi0 hb
    subst hr hri
    rcases hb with hb | ⟨hb, hiN⟩ | ⟨hb, hiN⟩ | hb | hb <;> subst hb
    · by_cases hc : i < (N : Int)
      · simp [step, hc, hq, hi0]
      · simp [step, hc, hq, hi0]
    · have hw := hW i.toNat (by omega)
      rw [Int.toNat_of_nonneg hi0] at hw
      simp [step, hq, hw, hi0, hiN]
    · have hw : wrap64 (i + 1) = i + 1 := wrap64_of_range (by omega) (by omega)
      simp [step, hw]
      omega
    · simp [step, hq, hi0]
    · simp [step, hi0]

/-- C16. For every query with a where clause whose value is false on every row `i < N`
(`N` fits the signed 64-bit parameter `size`), whatever the select expression is: `loop`
returns 0 (within `3 * N + 2` basic blocks), and at every point of the execution the
result buffer is what it was and control is neither in `body_main`, where select is
evaluated, nor in `body_store` nor in `overflow_error`; so a select value `INFINITY` on a
row that the where clause rejects does not make `loop` return `OVERFLOW_CODE`. -/
theorem C16_all_rows_filtered_returns_zero {F : Type} (fo : FloatOps F) (q : Query F)
    (w : Operation F) (hq : q.where_ = some w) (inputs : List (Option (List F))) (N : Nat)
    (hsz : (N : Int) < 9223372036854775808) (result : List F)
    (hW : ∀ i, i < N →
      PerformOperation fo (entryHandles inputs q.columns 0 (fun _ => none)) w (i : Int)
        = some (.i1 false))
    (fuel : Nat) :
    (3 * N + 2 ≤ fuel → (loop_func fo q fuel result inputs (N : Int)).block = .returned 0) ∧
      (loop_func fo q fuel result inputs (N : Int)).result = result ∧
      (loop_func fo q fuel result inputs (N : Int)).block ≠ .body_main ∧
      (∀ ib x, (loop_func fo q fuel result inputs (N : Int)).block ≠ .body_store ib x) ∧
      (loop_func fo q fuel result inputs (N : Int)).block ≠ .overflow_error ∧
      (loop_func fo q fuel result inputs (N : Int)).block ≠ .returned OVERFLOW_CODE := by
  have he : entry q result = ⟨.condition, 0, some 0, result⟩ := by simp [entry, hq]
  have hinv := all_false_inv fo q (entryHandles inputs q.columns 0 (fun _ => none)) w hq N hsz
    result hW fuel
  unfold loop_func
  rw [he]
  refine ⟨fun hfuel => ?_, hinv.1, ?_, ?_, ?_, ?_⟩
  · have h2 : run fo q (entryHandles inputs q.columns 0 (fun _ => none)) (N : Int) (3 * N + 2)
        ⟨.condition, 0, some 0, result⟩ = ⟨.returned 0, (N : Int), some 0, result⟩ := by
      rw [run_add, all_false_prefix fo q _ w hq N hsz result hW N (le_refl N),
        exit_where fo q _ N w hq _ _ _ (le_refl _)]
    rw [run_of_le_returned fo q _ _ hfuel _ 0 (by rw [h2]), h2]
  all_goals
    rcases hinv.2.2.2 with hb | ⟨hb, _⟩ | ⟨hb, _⟩ | hb | hb <;> simp [hb, OVERFLOW_CODE]

set_option maxRecDepth 10000 in
/-- Scenario 3 of the spec with a select value that would be `INFINITY`,
`SELECT a/(a-a) WHERE a<a` over the demo table: `loop` returns 0 and the buffer is
untouched. -/
theorem C16_all_rows_filtered_returns_zero_witness :
    (loop_func IntDouble.ops demoNonePass 14 [.nan, .nan, .nan, .nan] demoInputs 4).block
        = .returned 0 ∧
      (loop_func IntDouble.ops demoNonePass 14 [.nan, .nan, .nan, .nan] demoInputs 4).result
        = [.nan, .nan, .nan, .nan] :=
  have h := C16_all_rows_filtered_returns_zero IntDouble.ops demoNonePass _ rfl demoInputs 4
    (by decide) [.nan, .nan, .nan, .nan] (by decide) 14
  ⟨h.1 (by decide), h.2.1⟩

/-! ## Termination -/

theorem inBody_step {F : Type} (fo : FloatOps F) (q : Query F) (h : Handles F) (size : Int)
    (hsz : size < 9223372036854775808) (s : State F) (hs : InBody size s) :
    InBody size (step fo q h size s) ∧
      (s.block = .increment → (step fo q h size s).index = s.index + 1) ∧
      (s.block ≠ .increment → (step fo q h size s).index = s.index) := by
  obtain ⟨b, i, ri, r⟩ := s
  obtain ⟨hi0, hb⟩ := hs
  simp only at hi0 hb
  cases b with
  | increment =>
    have hw : wrap64 (i + 1) = i + 1 := wrap64_of_range (by omega) (by omega)
    simp [InBody, step, hw]
    omega
  | condition =>
    by_cases hc : i < size
    · cases hq : q.where_.isSome <;> simp [InBody, step, hc, hq, hi0]
    · simp [InBody, step, hc, hi0]
  | body_condition =>
    simp only [step]
    split
    · split <;> simp_all [InBody]
    · simp_all [InBody]
  | body_main =>
    simp only [step]
    split
    · split <;> simp_all [InBody]
    · simp_all [InBody]
  | body_store ib x =>
    simp only [step]
    split
    · split
      · split <;> simp_all [InBody]
      · simp_all [InBody]
    · split <;> simp_all [InBody]
  | end_block =>
    simp only [step]
    split
    · split <;> simp_all [InBody]
    · simp_all [InBody]
  | overflow_error => simp_all [InBody, step]
  | returned v => simp_all [InBody, step]
  | fault => simp_all [InBody, step]

theorem measures_step {F : Type} (fo : FloatOps F) (q : Query F) (h : Handles F) (size : Int)
    (hsz : size < 9223372036854775808) (s : State F) (hs : InBody size s) :
    (blocksLeft size (step fo q h size s) + 1 ≤ blocksLeft size s ∨
        s.block = .fault ∨ ∃ v, s.block = .returned v) ∧
      (match s.block with
        | .condition => if s.index < size then 1 else 0
        | _ => 0) + entriesLeft size (step fo q h size s) ≤ entriesLeft size s := by
  obtain ⟨b, i, ri, r⟩ := s
  obtain ⟨hi0, hb⟩ := hs
  simp only at hi0 hb
  cases b with
  | increment =>
    have hb2 : i < size := hb
    have hw : wrap64 (i + 1) = i + 1 := wrap64_of_range (by omega) (by omega)
    simp only [blocksLeft, entriesLeft, step, hw]
    omega
  | condition =>
    by_cases hc : i < size
    · cases hq : q.where_.isSome <;> simp [blocksLeft, entriesLeft, step, hc, hq] <;> omega
    · simp [blocksLeft, entriesLeft, step, hc]
  | body_condition =>
    have hb2 : i < size := hb
    simp only [step]
    split
    · split <;> simp [blocksLeft, entriesLeft]
    · simp [blocksLeft, entriesLeft]
  | body_main =>
    have hb2 : i < size := hb
    simp only [step]
    split
    · split <;> simp [blocksLeft, entriesLeft] <;> omega
    · simp [blocksLeft, entriesLeft]
      omega
  | body_store ib x =>
    have hb2 : i < size := hb
    simp only [step]
    split
    · split
      · split <;> simp [blocksLeft, entriesLeft] <;> omega
      · simp [blocksLeft, entriesLeft]
        omega
    · split <;> simp [blocksLeft, entriesLeft] <;> omega
  | end_block =>
    simp only [step]
    split
    · split <;> simp [blocksLeft, entriesLeft]
    · simp [blocksLeft, entriesLeft]
  | overflow_error => simp [blocksLeft, entriesLeft, step]
  | returned v => simp [blocksLeft, entriesLeft, step]
  | fault => simp [blocksLeft, entriesLeft, step]

/-- From a state with `0 ≤ index` (and `index < size` inside the body), `loop` has stopped
after `blocksLeft` basic blocks. -/
theorem run_halts {F : Type} (fo : FloatOps F) (q : Query F) (h : Handles F) (size : Int)
    (hsz : size < 9223372036854775808) (n : Nat) (s : State F) (hs : InBody size s)
    (hn : blocksLeft size s ≤ n) :
    (run fo q h size n s).block = .fault ∨ ∃ v, (run fo q h size n s).block = .returned v := by
  induction n generalizing s with
  | zero =>
    rcases (measures_step fo q h size hsz s hs).1 with hlt | hf | ⟨v, hv⟩
    · omega
    · exact Or.inl hf
    · exact Or.inr ⟨v, hv⟩
  | succ n ih =>
    rcases (measures_step fo q h size hsz s hs).1 with hlt | hf | ⟨v, hv⟩
    · exact ih _ (inBody_step fo q h size hsz s hs).1 (by omega)
    · rw [run_fault fo q h size _ s hf]; exact Or.inl hf
    · rw [run_returned fo q h size _ s v hv]; exact Or.inr ⟨v, hv⟩

theorem bodyEntries_le {F : Type} (fo : FloatOps F) (q : Query F) (h : Handles F) (size : Int)
    (hsz : size < 9223372036854775808) (n : Nat) (s : State F) (hs : InBody size s) :
    bodyEntries fo q h size n s ≤ entriesLeft size s := by
  induction n generalizing s with
  | zero => simp [bodyEntries]
  | succ n ih =>
    have h1 := ih _ (inBody_step fo q h size hsz s hs).1
    have h2 := (measures_step fo q h size hsz s hs).2
    simp only [bodyEntries]
    omega

theorem inBody_run {F : Type} (fo : FloatOps F) (q : Query F) (h : Handles F) (size : Int)
    (hsz : size < 9223372036854775808) (n : Nat) (s : State F) (hs : InBody size s) :
    InBody size (run fo q h size n s) := by
  induction n generalizing s with
  | zero => exact hs
  | succ n ih => exact ih _ (inBody_step fo q h size hsz s hs).1

/-- A `ret` is executed only in the blocks `end` and `overflow_error`. -/
theorem returned_from {F : Type} (fo : FloatOps F) (q : Query F) (h : Handles F) (size : Int)
    (s : State F) (v : Int) (hv : (step fo q h size s).block = .returned v) :
    s.block = .returned v ∨ s.block = .end_block ∨
      (s.block = .overflow_error ∧ v = OVERFLOW_CODE) := by
  obtain ⟨b, i, ri, r⟩ := s
  cases b with
  | returned u => simpa [step] using hv
  | end_block => simp
  | overflow_error => simpa [step, eq_comm] using hv
  | fault => simp [step] at hv
  | increment => simp [step] at hv
  | condition =>
    simp only [step] at hv
    split at hv
    · split at hv <;> simp at hv
    · simp at hv
  | body_condition =>
    simp only [step] at hv
    split at hv
    · split at hv <;> simp at hv
    · simp at hv
  | body_main =>
    simp only [step] at hv
    split at hv
    · split at hv <;> simp at hv
    · simp at hv
  | body_store ib x =>
    simp only [step] at hv
    split at hv
    · split at hv
      · split at hv <;> simp at hv
      · simp at hv
    · split at hv <;> simp at hv

/-- C19. For every query, every `size` below `2^63` (every signed 64-bit value, those
`≤ 0` included), every buffer and every column data, the execution of `loop` terminates:
`index` starts at 0; a basic block changes `index` only if it is `increment`, which adds
exactly 1; control enters the loop body at most `max(size, 0)` times; after at most
`5 * max(size, 0) + 2` basic blocks the function has returned (or has stopped on an
instruction without defined behaviour); and a return comes only from the block `end` or
from `overflow_error`. -/
theorem C19_loop_terminates {F : Type} (fo : FloatOps F) (q : Query F)
    (inputs : List (Option (List F))) (size : Int) (hsz : size < 9223372036854775808)
    (result : List F) :
    (entry q result).index = 0 ∧
      (∀ n, ((loop_func fo q n result inputs size).block = .increment →
            (loop_func fo q (n + 1) result inputs size).index
              = (loop_func fo q n result inputs size).index + 1) ∧
          ((loop_func fo q n result inputs size).block ≠ .increment →
            (loop_func fo q (n + 1) result inputs size).index
              = (loop_func fo q n result inputs size).index)) ∧
      (∀ n, bodyEntries fo q (entryHandles inputs q.columns 0 (fun _ => none)) size n
          (entry q result) ≤ size.toNat) ∧
      (∀ fuel, 5 * size.toNat + 2 ≤ fuel →
        (loop_func fo q fuel result inputs size).block = .fault ∨
          ∃ v, (loop_func fo q fuel result inputs size).block = .returned v) ∧
      (∀ n v, (loop_func fo q (n + 1) result inputs size).block = .returned v →
        (loop_func fo q n result inputs size).block = .returned v ∨
          (loop_func fo q n result inputs size).block = .end_block ∨
          ((loop_func fo q n result inputs size).block = .overflow_error ∧
            v = OVERFLOW_CODE)) := by
  have h0 : InBody size (entry q result) := ⟨le_refl _, trivial⟩
  refine ⟨rfl, fun n => ?_, fun n => ?_, fun fuel hfuel => ?_, fun n v hv => ?_⟩
  · unfold loop_func
    rw [run_succ_last]
    exact (inBody_step fo q _ size hsz _ (inBody_run fo q _ size hsz n _ h0)).2
  · have := bodyEntries_le fo q (entryHandles inputs q.columns 0 (fun _ => none)) size hsz n
      _ h0
    simpa [entriesLeft, entry] using this
  · exact run_halts fo q _ size hsz fuel _ h0 (by simpa [blocksLeft, entry] using hfuel)
  · unfold loop_func at hv ⊢
    rw [run_succ_last] at hv
    exact returned_from fo q _ size _ v hv

set_option maxRecDepth 10000 in
/-- `SELECT a+b` with `size = -3`: after two basic blocks `loop` has returned 0, without
entering the loop body. -/
theorem C19_loop_terminates_witness :
    (loop_func IntDouble.ops demoAdd 2 [] demoInputs (-3)).block = .returned 0 ∧
      bodyEntries IntDouble.ops demoAdd
        (entryHandles demoInputs demoAdd.columns 0 (fun _ => none)) (-3) 2 (entry demoAdd [])
        ≤ 0 :=
  have h := C19_loop_terminates IntDouble.ops demoAdd demoInputs (-3) (by decide) []
  ⟨by decide, h.2.2.1 2⟩

/-! ## `ReadQuery` -/

/-- The converted `char` equals `EOF` exactly for the byte 255. -/
theorem toChar_eq_EOF (b : Byte) : toChar (b.val : Int) = EOF ↔ b = 255 := by
  constructor
  · intro h
    apply Fin.ext
    have hlt := b.isLt
    simp only [toChar, EOF] at h
    show b.val = 255
    omega
  · rintro rfl
    decide

/-- Bytes other than `;` and 255 read while `buffer[0]` holds a byte that is no backslash:
they are stored one after the other, a newline as a space. -/
theorem go_chars (c1 : Byte) (hc1 : c1 ≠ byteOf '\\') (cs rest wr tl : List Byte)
    (hno : byteOf ';' ∉ cs) (heof : (255 : Byte) ∉ cs) (hlen : cs.length ≤ tl.length) :
    ReadQuery.go (cs ++ rest) (c1 :: wr ++ tl) (wr.length + 1)
      = ReadQuery.go rest (c1 :: wr ++ cs.map storedByte ++ tl.drop cs.length)
          (wr.length + 1 + cs.length) := by
  induction cs generalizing wr tl with
  | nil => simp
  | cons c cs ih =>
    cases tl with
    | nil => simp at hlen
    | cons t tl =>
      have hc : c ≠ byteOf ';' := fun e => hno (by simp [e])
      have hcs : byteOf ';' ∉ cs := fun e => hno (by simp [e])
      have he : ¬ (toChar (c.val : Int) = EOF) := fun e =>
        heof (by rw [(toChar_eq_EOF c).mp e]; exact List.mem_cons_self _ _)
      have hes : (255 : Byte) ∉ cs := fun e => heof (List.mem_cons_of_mem _ e)
      have hl : cs.length ≤ tl.length := by simpa using hlen
      have hset : ∀ x : Byte, (c1 :: wr ++ t :: tl).set (wr.length + 1) x
          = c1 :: (wr ++ [x]) ++ tl := by
        intro x
        have : (c1 :: wr).length ≤ wr.length + 1 := by simp
        rw [List.set_append_right _ _ this]
        simp
      have hpos : wr.length + 1 < (c1 :: wr ++ t :: tl).length := by simp
      have h0 : (c1 :: wr ++ t :: tl).get? 0 = some c1 := by simp
      have hne : ¬ (some c1 = some (byteOf '\\')) := fun e => hc1 (Option.some.inj e)
      have key := ih (wr ++ [storedByte c]) tl hcs hes hl
      simp only [List.length_append, List.length_singleton] at key
      rw [show wr.length + 1 + 1 + cs.length = wr.length + 1 + (c :: cs).length by
        simp only [List.length_cons]; omega] at key
      by_cases hn : c = byteOf '\n'
      · simp only [List.cons_append, ReadQuery.go, he, hn, if_false, if_true]
        simp only [← List.cons_append, h0, hne, if_false, hpos, if_true, hset]
        rw [show storedByte c = byteOf ' ' by simp [storedByte, hn]] at key
        simpa [storedByte, hn] using key
      · simp only [List.cons_append, ReadQuery.go, he, hn, if_false, hc]
        simp only [← List.cons_append, hpos, if_true, hset]
        rw [show storedByte c = c by simp [storedByte, hn]] at key
        simpa [storedByte, hn] using key

/-- The buffer of `ReadQuery` at the start: 5000 bytes. -/
theorem buffer_cons (garbage : Nat → Byte) :
    ∃ tl0 : List Byte, (List.range 5000).map garbage = garbage 0 :: tl0 ∧ tl0.length = 4999 := by
  refine ⟨(List.range 4999).map (fun i => garbage (i + 1)), ?_, by simp⟩
  rw [show (5000 : Nat) = 4999 + 1 from rfl, List.range_succ_eq_map]
  simp [Function.comp_def]

/-- A first byte that is neither a newline nor `;` nor 255 is stored at `buffer[0]`. -/
theorem go_first (c1 : Byte) (hn : c1 ≠ byteOf '\n') (hs : c1 ≠ byteOf ';') (he : c1 ≠ 255)
    (rest : List Byte) (g0 : Byte) (tl0 : List Byte) :
    ReadQuery.go (c1 :: rest) (g0 :: tl0) 0 = ReadQuery.go rest (c1 :: tl0) 1 := by
  have he2 : ¬ (toChar (c1.val : Int) = EOF) := fun e => he ((toChar_eq_EOF c1).mp e)
  simp [ReadQuery.go, hn, hs, he2]

/-- A byte other than newline, `;` and 255 read when `buffer` is full is stored outside
the buffer. -/
theorem go_full (c : Byte) (hn : c ≠ byteOf '\n') (hs : c ≠ byteOf ';') (he : c ≠ 255)
    (rest buffer : List Byte) (pos : Nat) (hp : buffer.length ≤ pos) :
    ReadQuery.go (c :: rest) buffer pos = .fault := by
  have hlt : ¬ (pos < buffer.length) := by omega
  have he2 : ¬ (toChar (c.val : Int) = EOF) := fun e => he ((toChar_eq_EOF c).mp e)
  simp only [ReadQuery.go, hn, hs, he2, if_false, hlt]

/-- The byte 255 is taken for the end of the input: `ReadQuery` returns `\q` and leaves
the bytes after it unread. -/
theorem go_byte_255 (rest buffer : List Byte) (pos : Nat) :
    ReadQuery.go (255 :: rest) buffer pos = .str "\\q" rest := by
  have he : toChar (((255 : Byte).val : Nat) : Int) = EOF := by decide
  simp only [ReadQuery.go, he, if_true]

/-- The byte `;` read after the bytes `wr` have been stored: the statement returned is the
C string at the start of `wr` followed by a zero, the input left is what follows the
`;`. -/
theorem go_semicolon (wr rest : List Byte) (d : Byte) (ds : List Byte) :
    ReadQuery.go (byteOf ';' :: rest) (wr ++ d :: ds) wr.length
      = .str (stringOf (wr.takeWhile (fun c => c != 0))) rest := by
  have hset : (wr ++ d :: ds).set wr.length 0 = wr ++ 0 :: ds := by
    rw [List.set_append_right _ _ (le_refl _)]
    simp
  have hc : cString (wr ++ 0 :: ds) = some (stringOf (wr.takeWhile (fun c => c != 0))) := by
    have htw : (wr ++ 0 :: ds).takeWhile (fun c => c != 0)
        = wr.takeWhile (fun c => c != 0) := by
      rw [List.takeWhile_append]
      split
      · next h =>
        have hw : wr.takeWhile (fun c => c != 0) = wr :=
          (List.takeWhile_prefix _).eq_of_length h
        simp [hw]
      · rfl
    simp [cString, htw]
  have hne : ¬ (byteOf ';' = byteOf '\n') := by decide
  have he : ¬ (toChar ((byteOf ';').val : Int) = EOF) := by decide
  simp [ReadQuery.go, hne, he, hset, hc]

/-- End of input after at most 5000 bytes, none of which is `;` or 255, the first of which
is neither a backslash nor a newline: `ReadQuery` returns the string `\q`. -/
theorem ReadQuery_eof (garbage : Nat → Byte) (c1 : Byte) (cs : List Byte)
    (hb : c1 ≠ byteOf '\\') (hn : c1 ≠ byteOf '\n') (hno : byteOf ';' ∉ c1 :: cs)
    (heof : (255 : Byte) ∉ c1 :: cs) (hk : cs.length + 1 ≤ 5000) :
    ReadQuery garbage [] = .str "\\q" [] ∧ ReadQuery garbage (c1 :: cs) = .str "\\q" [] := by
  obtain ⟨tl0, hbuf, hl⟩ := buffer_cons garbage
  refine ⟨rfl, ?_⟩
  have hs : c1 ≠ byteOf ';' := fun e => hno (by simp [e])
  have hcs : byteOf ';' ∉ cs := fun e => hno (by simp [e])
  have he : c1 ≠ 255 := fun e => heof (by simp [e])
  have hes : (255 : Byte) ∉ cs := fun e => heof (List.mem_cons_of_mem _ e)
  have h2 := go_chars c1 hb cs [] [] tl0 hcs hes (by omega)
  rw [List.append_nil] at h2
  rw [ReadQuery, hbuf, go_first c1 hn hs he]
  exact h2.trans rfl

/-- A statement of `k` bytes, none of which is `;` or 255, the first neither backslash nor
newline, followed by `;`, with `k + 1 ≤ 5000`: `ReadQuery` returns the C string at the
start of the stored bytes and leaves the input after the `;`. -/
theorem ReadQuery_statement (garbage : Nat → Byte) (c1 : Byte) (cs rest : List Byte)
    (hb : c1 ≠ byteOf '\\') (hn : c1 ≠ byteOf '\n') (hno : byteOf ';' ∉ c1 :: cs)
    (heof : (255 : Byte) ∉ c1 :: cs) (hk : cs.length + 1 + 1 ≤ 5000) :
    ReadQuery garbage (c1 :: cs ++ byteOf ';' :: rest)
      = .str (stringOf ((c1 :: cs.map storedByte).takeWhile (fun c => c != 0))) rest := by
  obtain ⟨tl0, hbuf, hl⟩ := buffer_cons garbage
  have hs : c1 ≠ byteOf ';' := fun e => hno (by simp [e])
  have hcs : byteOf ';' ∉ cs := fun e => hno (by simp [e])
  have he : c1 ≠ 255 := fun e => heof (by simp [e])
  have hes : (255 : Byte) ∉ cs := fun e => heof (List.mem_cons_of_mem _ e)
  have h2 := go_chars c1 hb cs (byteOf ';' :: rest) [] tl0 hcs hes (by omega)
  have hlt : cs.length < tl0.length := by omega
  obtain ⟨d, ds, hd⟩ : ∃ d ds, tl0.drop cs.length = d :: ds :=
    ⟨_, _, List.drop_eq_getElem_cons hlt⟩
  have h3 := go_semicolon (c1 :: cs.map storedByte) rest d ds
  rw [ReadQuery, hbuf, List.cons_append, go_first c1 hn hs he]
  refine (h2.trans ?_).trans h3
  rw [hd]
  simp [Nat.add_comm]

/-- C12. End of input after 5000 bytes `a` makes `ReadQuery` return the string `\q`, as
the claim says; end of input after 5001 bytes `a` (no `;`, no newline, no backslash) does
not: the 5001st byte is stored at `buffer[5000]`, outside the 5000 bytes of `buffer`, for
every content that `malloc` left in the buffer. -/
theorem C12_long_input_overruns_buffer (garbage : Nat → Byte) :
    ReadQuery garbage (List.replicate 5000 (byteOf 'a')) = .str "\\q" [] ∧
      ReadQuery garbage (List.replicate 5001 (byteOf 'a')) = .fault := by
  have hno : byteOf ';' ∉ byteOf 'a' :: List.replicate 4999 (byteOf 'a') := by
    intro hm
    rcases List.mem_cons.mp hm with e | e
    · exact absurd e (by decide)
    · exact absurd (List.eq_of_mem_replicate e) (by decide)
  have heof : (255 : Byte) ∉ byteOf 'a' :: List.replicate 4999 (byteOf 'a') := by
    intro hm
    rcases List.mem_cons.mp hm with e | e
    · exact absurd e (by decide)
    · exact absurd (List.eq_of_mem_replicate e) (by decide)
  have hrl : (List.replicate 4999 (byteOf 'a')).length = 4999 := List.length_replicate _ _
  constructor
  · rw [show List.replicate 5000 (byteOf 'a') = byteOf 'a' :: List.replicate 4999 (byteOf 'a')
      from rfl]
    exact (ReadQuery_eof garbage (byteOf 'a') (List.replicate 4999 (byteOf 'a')) (by decide)
      (by decide) hno heof (by rw [hrl])).2
  · obtain ⟨tl0, hbuf, hl⟩ := buffer_cons garbage
    have h2 := go_chars (byteOf 'a') (by decide) (List.replicate 4999 (byteOf 'a'))
      [byteOf 'a'] [] tl0 (fun e => hno (List.mem_cons_of_mem _ e))
      (fun e => heof (List.mem_cons_of_mem _ e)) (by rw [hrl, hl])
    have hdrop : tl0.drop (List.replicate 4999 (byteOf 'a')).length = [] :=
      List.drop_eq_nil_of_le (by rw [hrl, hl])
    rw [hdrop] at h2
    have hstep := go_full (byteOf 'a') (by decide) (by decide) (by decide) []
      ([byteOf 'a'] ++ List.map storedByte (List.replicate 4999 (byteOf 'a')) ++ [])
      (([] : List Byte).length + 1 + (List.replicate 4999 (byteOf 'a')).length)
      (by simp only [List.length_append, List.length_map, List.length_cons, List.length_nil,
        hrl]; decide)
    have hrep : List.replicate 5001 (byteOf 'a')
        = byteOf 'a' :: (List.replicate 4999 (byteOf 'a') ++ [byteOf 'a']) := by
      rw [show (5001 : Nat) = (4999 + 1) + 1 from rfl, List.replicate_succ,
        List.replicate_succ']
    rw [hrep, ReadQuery, hbuf, go_first (byteOf 'a') (by decide) (by decide) (by decide)]
    exact (h2.trans hstep)

/-- C18, as stated, fails. For the input `a`, zero, `b`, `;` (three bytes before the `;`,
none of them `;`, the first neither backslash nor newline) `ReadQuery` returns the string
`a`, not the three bytes: the returned C string ends at the first zero. For the input `a`,
byte 255, `b`, `;` it returns `\q` and leaves `b;` unread: the byte 255, converted to
`char`, equals `EOF`. -/
theorem C18_counterexample :
    ¬ (∀ (garbage : Nat → Byte) (c1 : Byte) (cs rest : List Byte), c1 ≠ byteOf '\\' →
        c1 ≠ byteOf '\n' → byteOf ';' ∉ c1 :: cs → (c1 :: cs).length + 1 < 5000 →
        ReadQuery garbage (c1 :: cs ++ byteOf ';' :: rest)
          = .str (stringOf ((c1 :: cs).map storedByte)) rest) ∧
      ReadQuery (fun _ => 0) [byteOf 'a', 0, byteOf 'b', byteOf ';'] = .str "a" [] ∧
      ReadQuery (fun _ => 0) [byteOf 'a', 255, byteOf 'b', byteOf ';']
        = .str "\\q" [byteOf 'b', byteOf ';'] := by
  have h2 : ReadQuery (fun _ => 0) [byteOf 'a', 0, byteOf 'b', byteOf ';'] = .str "a" [] :=
    (ReadQuery_statement (fun _ => 0) (byteOf 'a') [0, byteOf 'b'] [] (by decide)
      (by decide) (by decide) (by decide) (by decide)).trans (by decide)
  have h3 : ReadQuery (fun _ => 0) [byteOf 'a', 255, byteOf 'b', byteOf ';']
      = .str "\\q" [byteOf 'b', byteOf ';'] := by
    obtain ⟨tl0, hbuf, _⟩ := buffer_cons (fun _ => (0 : Byte))
    rw [ReadQuery, hbuf, go_first (byteOf 'a') (by decide) (by decide) (by decide),
      go_byte_255]
  refine ⟨fun hall => ?_, h2, h3⟩
  have h1 := hall (fun _ => 0) (byteOf 'a') [0, byteOf 'b'] [] (by decide) (by decide)
    (by decide) (by decide)
  rw [show byteOf 'a' :: [0, byteOf 'b'] ++ byteOf ';' :: []
    = [byteOf 'a', 0, byteOf 'b', byteOf ';'] from rfl, h2] at h1
  exact absurd h1 (by decide)

/-- C18, amended. For every input that begins with bytes `c1..ck` (`1 ≤ k`,
`k + 1 < 5000`), none of which is `;`, the zero byte or the byte 255, with `c1` neither a
backslash nor a newline, followed by `;`: `ReadQuery` returns exactly the string `c1..ck`
with every newline replaced by a space, and the input left is what follows that `;`. -/
theorem C18_statement_up_to_semicolon (garbage : Nat → Byte) (c1 : Byte) (cs rest : List Byte)
    (hb : c1 ≠ byteOf '\\') (hn : c1 ≠ byteOf '\n') (hno : byteOf ';' ∉ c1 :: cs)
    (hnul : (0 : Byte) ∉ c1 :: cs) (heof : (255 : Byte) ∉ c1 :: cs)
    (hk : (c1 :: cs).length + 1 < 5000) :
    ReadQuery garbage (c1 :: cs ++ byteOf ';' :: rest)
      = .str (stringOf ((c1 :: cs).map storedByte)) rest := by
  have h := ReadQuery_statement garbage c1 cs rest hb hn hno heof
    (by simp only [List.length_cons] at hk; omega)
  have h1 : storedByte c1 = c1 := by simp [storedByte, hn]
  have hall : ∀ a, a ∈ c1 :: cs.map storedByte → (a != 0) = true := by
    intro a ha
    rcases List.mem_cons.mp ha with e | e
    · subst e
      have ha0 : a ≠ 0 := fun e => hnul (e ▸ List.mem_cons_self _ _)
      simpa using ha0
    · obtain ⟨c, hc, rfl⟩ := List.mem_map.mp e
      have hc0 : c ≠ 0 := fun e => hnul (e ▸ List.mem_cons_of_mem _ hc)
      by_cases hcn : c = byteOf '\n'
      · subst hcn; decide
      · simpa [storedByte, hcn] using hc0
  rw [h, List.takeWhile_eq_self_iff.mpr hall, List.map_cons, h1]

/-- The input `a`, newline, `b`, `;`, `c`: `ReadQuery` returns `a b` and leaves `c`. -/
theorem C18_statement_up_to_semicolon_witness :
    ReadQuery (fun _ => 0) [byteOf 'a', byteOf '\n', byteOf 'b', byteOf ';', byteOf 'c']
      = .str "a b" [byteOf 'c'] :=
  (C18_statement_up_to_semicolon (fun _ => 0) (byteOf 'a') [byteOf '\n', byteOf 'b']
    [byteOf 'c'] (by decide) (by decide) (by decide) (by decide) (by decide)
    (by decide)).trans (by decide)

end RembranDB
